import Mathlib

/-!
Shallow embedding of the pending-transaction queue
(`src/src/herder/TransactionQueue.cpp`) of Th-ium/ThiumCore.

Transactions are opaque records exposing the attributes the queue consults.
Hashes and account ids are modelled as natural numbers; 64-bit fee and
sequence values as `Int` (the C++ arithmetic on them never overflows in the
ranges the queue handles, and where overflow matters — the 128-bit fee
comparison — an explicit `% 2 ^ 128` model is compared with the exact one).
The `std::map<AccountID, AccountState>` is modelled as an association list
sorted by key, so that list order coincides with map iteration order; the
`unordered_set<Hash>` ban slots are modelled as duplicate-free lists.
External collaborators (validator, ledger balances, last-closed-ledger op
cap) are a `LedgerEnv` record of functions, as in the spec's §6.
-/

namespace ThiumCore

inductive EnvType where
  | Plain
  | FeeBump
deriving DecidableEq, Repr

/-- The attributes of a transaction frame consulted by the queue
(`getFullHash`, `getInnerFullHash`, envelope type, `getSourceID`,
`getFeeSourceID`, `getSeqNum`, `getNumOperations`, `getFeeBid`). -/
structure Tx where
  fullHash : Nat
  innerFullHash : Nat
  envType : EnvType
  sourceID : Nat
  feeSourceID : Nat
  seqNum : Int
  numOps : Nat
  feeBid : Int
deriving DecidableEq, Repr

def txDefault : Tx := ⟨0, 0, EnvType.Plain, 0, 0, 0, 0, 0⟩

/-- `TransactionQueue::FEE_MULTIPLIER` (= 10). -/
def FEE_MULTIPLIER : Int := 10

/-- `canReplaceByFee` (TransactionQueue.cpp:43-60), with the 128-bit
`bigMultiply` cross-multiplication carried out exactly over `Int`. -/
def canReplaceByFee (tx oldTx : Tx) : Bool :=
  let newFee : Int := tx.feeBid
  let newNumOps : Nat := max 1 tx.numOps
  let oldFee : Int := oldTx.feeBid
  let oldNumOps : Nat := max 1 oldTx.numOps
  let v1 : Int := newFee * (oldNumOps : Int)
  let v2 : Int := oldFee * (newNumOps : Int)
  decide (v1 ≥ FEE_MULTIPLIER * v2)

/-- `canReplaceByFee` with the `uint128_t` products and multiplier reduced
mod `2 ^ 128`, to state that the exact comparison above is what the machine
computes (no 128-bit overflow) in the int64/uint32 input ranges. -/
def canReplaceByFee128 (tx oldTx : Tx) : Bool :=
  let newFee : Nat := tx.feeBid.toNat
  let newNumOps : Nat := max 1 tx.numOps
  let oldFee : Nat := oldTx.feeBid.toNat
  let oldNumOps : Nat := max 1 oldTx.numOps
  let v1 : Nat := (newFee * oldNumOps) % 2 ^ 128
  let v2 : Nat := (oldFee * newNumOps) % 2 ^ 128
  decide (v1 ≥ (10 * v2) % 2 ^ 128)

/-- `findBySeq(seq, transactions, iter)` (TransactionQueue.cpp:62-77).
Returns the index the output iterator designates (`some i`, where
`i = transactions.length` is the end iterator) when the function returns
`true`, and `none` when it returns `false`. -/
def findBySeq (seq : Int) (transactions : List Tx) : Option Nat :=
  match transactions with
  | [] => none
  | t :: ts =>
    let firstSeq := t.seqNum
    let lastSeq := ((t :: ts).getLastD t).seqNum
    if seq < firstSeq ∨ seq > lastSeq + 1 then none
    else some (seq - firstSeq).toNat

/-- `isDuplicateTx` (TransactionQueue.cpp:87-104). -/
def isDuplicateTx (oldTx newTx : Tx) : Bool :=
  if oldTx.envType = newTx.envType then
    decide (oldTx.fullHash = newTx.fullHash)
  else if oldTx.envType = EnvType.FeeBump then
    decide (oldTx.innerFullHash = newTx.fullHash)
  else false

/-- `AccountState` (member layout as used throughout the .cpp). -/
structure AccountState where
  mTransactions : List Tx
  mTotalFees : Int
  mQueueSizeOps : Int
  mAge : Nat
deriving DecidableEq, Repr

def AccountState.emptyState : AccountState := ⟨[], 0, 0, 0⟩

/-- `std::map<AccountID, AccountState>` as an association list kept sorted
by key (so list order is map iteration order). -/
abbrev AccountStates := List (Nat × AccountState)

def findAcct (m : AccountStates) (k : Nat) : Option AccountState :=
  match m with
  | [] => none
  | (a, s) :: rest => if a = k then some s else findAcct rest k

def updateAcct (m : AccountStates) (k : Nat) (f : AccountState → AccountState) :
    AccountStates :=
  match m with
  | [] => []
  | (a, s) :: rest =>
    if a = k then (a, f s) :: rest else (a, s) :: updateAcct rest k f

def eraseAcct (m : AccountStates) (k : Nat) : AccountStates :=
  match m with
  | [] => []
  | (a, s) :: rest => if a = k then rest else (a, s) :: eraseAcct rest k

/-- `std::map::emplace` / `operator[]` key creation: inserts `v` at the
sorted position when `k` is absent, leaves the map unchanged otherwise. -/
def emplaceAcct (m : AccountStates) (k : Nat) (v : AccountState) :
    AccountStates :=
  match m with
  | [] => [(k, v)]
  | (a, s) :: rest =>
    if k < a then (k, v) :: (a, s) :: rest
    else if k = a then (a, s) :: rest
    else (a, s) :: emplaceAcct rest k v

/-- Insertion into an `unordered_set<Hash>` ban slot. -/
def insertHash (s : List Nat) (h : Nat) : List Nat :=
  if s.contains h then s else h :: s

/-- The queue state: `mAccountStates`, the ban ring (front slot first),
`mQueueSizeOps`, the construction parameters and the `mSizeByAge`
counters. -/
structure TxQueue where
  mAccountStates : AccountStates
  mBannedTransactions : List (List Nat)
  mQueueSizeOps : Int
  mPendingDepth : Nat
  mPoolLedgerMultiplier : Nat
  mSizeByAge : List Int
deriving DecidableEq, Repr

/-- The external collaborators of the queue (spec §6): the validator
`checkValid(tx, seqNum)`, the spendable balance of an account, and the
last-closed ledger's per-ledger op cap. -/
structure LedgerEnv where
  checkValid : Tx → Int → Bool
  availableBalance : Nat → Int
  lastMaxTxSetSizeOps : Nat

/-- `TransactionQueue::maxQueueSizeOps` (TransactionQueue.cpp:592-598). -/
def maxQueueSizeOps (q : TxQueue) (env : LedgerEnv) : Nat :=
  env.lastMaxTxSetSizeOps * q.mPoolLedgerMultiplier

/-- `TransactionQueue::isBanned` (TransactionQueue.cpp:516-524). -/
def isBanned (q : TxQueue) (h : Nat) : Bool :=
  q.mBannedTransactions.any (fun s => s.contains h)

/-- `TransactionQueue::countBanned` (TransactionQueue.cpp:510-514). -/
def countBanned (q : TxQueue) (i : Nat) : Nat :=
  (q.mBannedTransactions.getD i []).length

/-- Insert a hash into the front ban-ring slot (`mBannedTransactions.front()`). -/
def insertFront (q : TxQueue) (h : Nat) : TxQueue :=
  match q.mBannedTransactions with
  | [] => q
  | f :: rest => { q with mBannedTransactions := insertHash f h :: rest }

/-- Add `d` to the counter at index `i` (metrics `inc`/`dec`); out-of-range
indices leave the counters unchanged. -/
def adjustAt (l : List Int) (i : Nat) (d : Int) : List Int :=
  l.set i (l.getD i 0 + d)

/-- `TransactionQueue::releaseFeeMaybeEraseAccountState`
(TransactionQueue.cpp:204-219). -/
def releaseFeeMaybeEraseAccountState (q : TxQueue) (tx : Tx) : TxQueue :=
  match findAcct q.mAccountStates tx.feeSourceID with
  | none => q
  | some s =>
    let fees := s.mTotalFees - tx.feeBid
    if s.mTransactions = [] ∧ fees = 0 then
      { q with mAccountStates := eraseAcct q.mAccountStates tx.feeSourceID }
    else
      let m2 :=
        updateAcct q.mAccountStates tx.feeSourceID
          (fun s2 => { s2 with mTotalFees := s2.mTotalFees - tx.feeBid })
      { q with mAccountStates := m2 }

/-- The per-transaction loop of `TransactionQueue::dropTransactions`
(TransactionQueue.cpp:267-272): decrement the account and global op
counters, then release the fee. -/
def dropLoop (q : TxQueue) (k : Nat) (txs : List Tx) : TxQueue :=
  match txs with
  | [] => q
  | t :: rest =>
    dropLoop
      (releaseFeeMaybeEraseAccountState
        { q with
          mAccountStates :=
            (updateAcct q.mAccountStates k
              (fun s => { s with mQueueSizeOps := s.mQueueSizeOps - (t.numOps : Int) })),
          mQueueSizeOps := q.mQueueSizeOps - (t.numOps : Int) }
        t)
      k rest

/-- `TransactionQueue::dropTransactions` (TransactionQueue.cpp:258-290),
dropping the index range `[b, e)` of account `k`'s transactions. -/
def dropTransactions (q : TxQueue) (k : Nat) (b e : Nat) : TxQueue :=
  match findAcct q.mAccountStates k with
  | none => q
  | some s =>
    let dropped := (s.mTransactions.drop b).take (e - b)
    let q1 := dropLoop q k dropped
    let m2 :=
      updateAcct q1.mAccountStates k
        (fun s2 => { s2 with
          mTransactions := s2.mTransactions.take b ++ s2.mTransactions.drop e })
    let q2 : TxQueue := { q1 with mAccountStates := m2 }
    match findAcct q2.mAccountStates k with
    | none => q2
    | some s3 =>
      if s3.mTransactions = [] then
        if s3.mTotalFees = 0 then
          { q2 with mAccountStates := eraseAcct q2.mAccountStates k }
        else
          let m3 := updateAcct q2.mAccountStates k (fun s4 => { s4 with mAge := 0 })
          { q2 with mAccountStates := m3 }
      else q2

/-- One `seqByAccount[src] = max(seqByAccount[src], sq)` step of
`TransactionQueue::removeApplied` (`operator[]` default-constructs 0;
the `std::map` is kept sorted by key). -/
def insSeq : List (Nat × Int) → Nat → Int → List (Nat × Int)
  | [], src, sq => [(src, max 0 sq)]
  | (a, v) :: rest, src, sq =>
    if src < a then (src, max 0 sq) :: (a, v) :: rest
    else if src = a then (a, max v sq) :: rest
    else (a, v) :: insSeq rest src sq

/-- The `seqByAccount` map of `TransactionQueue::removeApplied`
(TransactionQueue.cpp:296-301): for each applied transaction, the maximum
applied `seqNum` per source account. -/
def buildSeqByAccount (applied : List Tx) : List (Nat × Int) :=
  applied.foldl (fun m tx => insSeq m tx.sourceID tx.seqNum) []

/-- The per-account body of `TransactionQueue::removeApplied`
(TransactionQueue.cpp:303-353). -/
def removeAppliedOne (q : TxQueue) (k : Nat) (maxSeq : Int) : TxQueue :=
  match findAcct q.mAccountStates k with
  | none => q
  | some s =>
    match s.mTransactions with
    | [] => q
    | t :: _ =>
      if t.seqNum ≤ maxSeq then
        let len := s.mTransactions.length
        let txIter : Nat :=
          match findBySeq maxSeq s.mTransactions with
          | none => len
          | some i => if i ≠ len then i + 1 else i
        let sizes1 := adjustAt q.mSizeByAge s.mAge (-(len : Int))
        let m1 := updateAcct q.mAccountStates k (fun s2 => { s2 with mAge := 0 })
        let sizes2 := adjustAt sizes1 0 ((len : Int) - (txIter : Int))
        let q3 : TxQueue :=
          { q with mAccountStates := m1, mSizeByAge := sizes2 }
        dropTransactions q3 k 0 txIter
      else q

/-- `TransactionQueue::removeApplied` (TransactionQueue.cpp:292-354). -/
def removeApplied (q : TxQueue) (applied : List Tx) : TxQueue :=
  (buildSeqByAccount applied).foldl (fun st kv => removeAppliedOne st kv.1 kv.2) q

/-- `findTx` (TransactionQueue.cpp:356-367): the index of the queued
transaction matching `tx` by sequence number and full hash, if any. -/
def findTx (tx : Tx) (transactions : List Tx) : Option Nat :=
  match findBySeq tx.seqNum transactions with
  | none => none
  | some i =>
    if h : i < transactions.length then
      if (transactions.get ⟨i, h⟩).fullHash = tx.fullHash then some i else none
    else none

/-- The `txIter` search loop of `TransactionQueue::ban`
(TransactionQueue.cpp:401-411): the lowest-sequence explicitly banned
transaction present in the queue by hash match (`none` = past-the-end). -/
def banFindLowest (group : List Tx) (transactions : List Tx) : Option Nat :=
  group.foldl
    (fun acc tx =>
      match acc with
      | none => findTx tx transactions
      | some i =>
        if tx.seqNum < (transactions.getD i txDefault).seqNum then
          match findTx tx transactions with
          | none => some i
          | some j => some j
        else some i)
    none

/-- The per-account body of `TransactionQueue::ban`
(TransactionQueue.cpp:384-432). -/
def banAccount (q : TxQueue) (k : Nat) (group : List Tx) : TxQueue :=
  match findAcct q.mAccountStates k with
  | none => q
  | some s =>
    match s.mTransactions with
    | [] => q
    | _ :: _ =>
      let len := s.mTransactions.length
      let txIter :=
        match banFindLowest group s.mTransactions with
        | none => len
        | some i => i
      let q1 :=
        (s.mTransactions.drop txIter).foldl
          (fun st t => insertFront st t.fullHash) q
      let sizes1 := adjustAt q1.mSizeByAge s.mAge (-((len : Int) - (txIter : Int)))
      let q2 : TxQueue := { q1 with mSizeByAge := sizes1 }
      dropTransactions q2 k txIter len

/-- One grouping step of `TransactionQueue::ban`: append `tx` to the
group of its source account (the `std::map` is kept sorted by key). -/
def insGroup : List (Nat × List Tx) → Tx → List (Nat × List Tx)
  | [], tx => [(tx.sourceID, [tx])]
  | (a, g) :: rest, tx =>
    if tx.sourceID < a then (tx.sourceID, [tx]) :: (a, g) :: rest
    else if tx.sourceID = a then (a, g ++ [tx]) :: rest
    else (a, g) :: insGroup rest tx

/-- The `transactionsByAccount` grouping of `TransactionQueue::ban`
(TransactionQueue.cpp:376-382): a sorted map from source account to the
explicitly banned transactions, in input order within each account. -/
def groupByAccount (txs : List Tx) : List (Nat × List Tx) :=
  txs.foldl insGroup []

/-- `TransactionQueue::ban` (TransactionQueue.cpp:369-433). -/
def ban (q : TxQueue) (banTxs : List Tx) : TxQueue :=
  let q1 := banTxs.foldl (fun st tx => insertFront st tx.fullHash) q
  (groupByAccount banTxs).foldl (fun st kv => banAccount st kv.1 kv.2) q1

/-- The body of the account loop of `TransactionQueue::shift`
(TransactionQueue.cpp:463-502), carrying the local `sizes` accumulator.
A key whose entry was erased by an earlier iteration's fee release is
skipped, as the live map iterator does. -/
def shiftAccount (st : TxQueue × List Int) (k : Nat) : TxQueue × List Int :=
  let q := st.1
  let sizes := st.2
  match findAcct q.mAccountStates k with
  | none => st
  | some s0 =>
    let newAge := if s0.mTransactions = [] then s0.mAge else s0.mAge + 1
    let m1 := updateAcct q.mAccountStates k (fun s => { s with mAge := newAge })
    let q1 : TxQueue := { q with mAccountStates := m1 }
    if q.mPendingDepth = newAge then
      let q2 :=
        s0.mTransactions.foldl
          (fun st2 t => insertFront (releaseFeeMaybeEraseAccountState st2 t) t.fullHash)
          q1
      let m2 :=
        updateAcct q2.mAccountStates k
          (fun s => { s with mQueueSizeOps := 0, mTransactions := [] })
      let q3 : TxQueue :=
        { q2 with mAccountStates := m2,
                  mQueueSizeOps := q2.mQueueSizeOps - s0.mQueueSizeOps }
      match findAcct q3.mAccountStates k with
      | none => (q3, sizes)
      | some s3 =>
        if s3.mTotalFees = 0 then
          ({ q3 with mAccountStates := eraseAcct q3.mAccountStates k }, sizes)
        else
          let m4 := updateAcct q3.mAccountStates k (fun s => { s with mAge := 0 })
          ({ q3 with mAccountStates := m4 }, sizes)
    else
      (q1, adjustAt sizes newAge (s0.mTransactions.length : Int))

/-- `TransactionQueue::shift` (TransactionQueue.cpp:451-508). -/
def shift (q : TxQueue) : TxQueue :=
  let ring2 := [] :: q.mBannedTransactions.dropLast
  let q0 : TxQueue := { q with mBannedTransactions := ring2 }
  let keys := q0.mAccountStates.map Prod.fst
  let p := keys.foldl shiftAccount (q0, List.replicate q.mPendingDepth 0)
  { p.1 with mSizeByAge := p.2 ++ p.1.mSizeByAge.drop q.mPendingDepth }

/-- The admission results (`TransactionQueue::AddResult`). -/
inductive AddResult where
  | Pending
  | Duplicate
  | TryAgainLater
  | Error
deriving DecidableEq, Repr

/-- The rejection codes the queue itself writes into `tx.result_code`
(`txBAD_SEQ`, `txINSUFFICIENT_FEE`, `txINSUFFICIENT_BALANCE`); codes
written by the external validator are not modelled. -/
inductive RCode where
  | BadSeq
  | InsufficientFee
  | InsufficientBalance
deriving DecidableEq, Repr

/-- The outcome of `TransactionQueue::canAdd`: the result, the code the
queue wrote (if any), the replacement slot `oldTxIter` designates
(`some i` = replace index `i`, `none` = end iterator / append) and the
state (which `canAdd` mutates only on the capacity-check `ban`). -/
structure CanAddRes where
  res : AddResult
  code : Option RCode
  oldTxIdx : Option Nat
  state : TxQueue
deriving Repr

/-- The envelope-dependent phase of `TransactionQueue::canAdd`
(TransactionQueue.cpp:116-174): either an early return, or the
`(netFee, netOps, seqNum, oldTxIter)` quadruple the later phases use. -/
def canAddPhase1 (q : TxQueue) (tx : Tx) :
    (AddResult × Option RCode) ⊕ (Int × Int × Int × Option Nat) :=
  let netFee : Int := tx.feeBid
  let netOps : Int := (tx.numOps : Int)
  match findAcct q.mAccountStates tx.sourceID with
  | none => Sum.inr (netFee, netOps, 0, none)
  | some s =>
    match s.mTransactions with
    | [] => Sum.inr (netFee, netOps, 0, none)
    | t :: ts =>
      let transactions := t :: ts
      if tx.envType ≠ EnvType.FeeBump then
        let dup :=
          match findBySeq tx.seqNum transactions with
          | none => false
          | some i =>
            if h : i < transactions.length then
              isDuplicateTx (transactions.get ⟨i, h⟩) tx
            else false
        if dup then Sum.inl (AddResult.Duplicate, none)
        else Sum.inr (netFee, netOps, ((t :: ts).getLastD t).seqNum, none)
      else
        match findBySeq tx.seqNum transactions with
        | none => Sum.inl (AddResult.Error, some RCode.BadSeq)
        | some i =>
          if h : i < transactions.length then
            let oldTx := transactions.get ⟨i, h⟩
            if isDuplicateTx oldTx tx then
              Sum.inl (AddResult.Duplicate, none)
            else if ¬ canReplaceByFee tx oldTx then
              Sum.inl (AddResult.Error, some RCode.InsufficientFee)
            else
              let netFee2 :=
                if oldTx.feeSourceID = tx.feeSourceID then netFee - oldTx.feeBid
                else netFee
              Sum.inr (netFee2, netOps - (oldTx.numOps : Int), tx.seqNum - 1, some i)
          else
            Sum.inr (netFee, netOps, tx.seqNum - 1, none)

/-- `TransactionQueue::canAdd` (TransactionQueue.cpp:106-202). -/
def canAdd (q : TxQueue) (env : LedgerEnv) (tx : Tx) : CanAddRes :=
  if isBanned q tx.fullHash then
    ⟨AddResult.TryAgainLater, none, none, q⟩
  else
    match canAddPhase1 q tx with
    | Sum.inl rc => ⟨rc.1, rc.2, none, q⟩
    | Sum.inr (netFee, netOps, seqNum, oldIdx) =>
      if netOps + q.mQueueSizeOps > (maxQueueSizeOps q env : Int) then
        ⟨AddResult.TryAgainLater, none, none, ban q [tx]⟩
      else if ¬ env.checkValid tx seqNum then
        ⟨AddResult.Error, none, none, q⟩
      else
        let totalFees :=
          match findAcct q.mAccountStates tx.feeSourceID with
          | none => 0
          | some fs => fs.mTotalFees
        if env.availableBalance tx.feeSourceID - netFee < totalFees then
          ⟨AddResult.Error, some RCode.InsufficientBalance, none, q⟩
        else
          ⟨AddResult.Pending, none, oldIdx, q⟩

/-- The trailing counter updates of `TransactionQueue::tryAdd`
(TransactionQueue.cpp:251-253): add the new transaction's ops to the
account and global counters and post its fee to the fee-source account
(`operator[]` creates that entry if needed). -/
def commitTail (q : TxQueue) (tx : Tx) : TxQueue :=
  let m1 :=
    updateAcct q.mAccountStates tx.sourceID
      (fun s => { s with mQueueSizeOps := s.mQueueSizeOps + (tx.numOps : Int) })
  let q1 : TxQueue :=
    { q with mAccountStates := m1,
             mQueueSizeOps := q.mQueueSizeOps + (tx.numOps : Int) }
  let m2 := emplaceAcct q1.mAccountStates tx.feeSourceID AccountState.emptyState
  let m3 :=
    updateAcct m2 tx.feeSourceID
      (fun s => { s with mTotalFees := s.mTotalFees + tx.feeBid })
  { q1 with mAccountStates := m3 }

/-- `TransactionQueue::tryAdd` (TransactionQueue.cpp:221-256). -/
def tryAdd (q : TxQueue) (env : LedgerEnv) (tx : Tx) :
    AddResult × Option RCode × TxQueue :=
  let c := canAdd q env tx
  if c.res ≠ AddResult.Pending then (c.res, c.code, c.state)
  else
    let q0 := c.state
    let q1 : TxQueue :=
      match findAcct q0.mAccountStates tx.sourceID with
      | none =>
        { q0 with mAccountStates :=
            emplaceAcct q0.mAccountStates tx.sourceID AccountState.emptyState }
      | some _ => q0
    match c.oldTxIdx with
    | some i =>
      let s := (findAcct q1.mAccountStates tx.sourceID).getD AccountState.emptyState
      let oldTx := s.mTransactions.getD i txDefault
      let q2 := releaseFeeMaybeEraseAccountState q1 oldTx
      let m2 :=
        updateAcct q2.mAccountStates tx.sourceID
          (fun s2 => { s2 with
            mQueueSizeOps := s2.mQueueSizeOps - (oldTx.numOps : Int),
            mTransactions := s2.mTransactions.set i tx })
      let q3 : TxQueue :=
        { q2 with mAccountStates := m2,
                  mQueueSizeOps := q2.mQueueSizeOps - (oldTx.numOps : Int) }
      (AddResult.Pending, none, commitTail q3 tx)
    | none =>
      let age := ((findAcct q1.mAccountStates tx.sourceID).getD AccountState.emptyState).mAge
      let m2 :=
        updateAcct q1.mAccountStates tx.sourceID
          (fun s2 => { s2 with mTransactions := s2.mTransactions ++ [tx] })
      let q2 : TxQueue :=
        { q1 with mAccountStates := m2,
                  mSizeByAge := adjustAt q1.mSizeByAge age 1 }
      (AddResult.Pending, none, commitTail q2 tx)

/-- `TransactionQueue::AccountTxQueueInfo`. -/
structure AccountTxQueueInfo where
  mMaxSeq : Int
  mTotalFees : Int
  mQueueSizeOps : Int
  mAge : Nat
deriving DecidableEq, Repr

/-- `TransactionQueue::getAccountTransactionQueueInfo`
(TransactionQueue.cpp:435-449). -/
def getAccountTransactionQueueInfo (q : TxQueue) (k : Nat) : AccountTxQueueInfo :=
  match findAcct q.mAccountStates k with
  | none => ⟨0, 0, 0, 0⟩
  | some s =>
    let seqNum :=
      match s.mTransactions with
      | [] => 0
      | t :: ts => ((t :: ts).getLastD t).seqNum
    ⟨seqNum, s.mTotalFees, s.mQueueSizeOps, s.mAge⟩

/-- `operator==(AccountTxQueueInfo, AccountTxQueueInfo)`
(TransactionQueue.cpp:584-590). -/
def infoEq (x y : AccountTxQueueInfo) : Bool :=
  decide (x.mMaxSeq = y.mMaxSeq) && decide (x.mTotalFees = y.mTotalFees) &&
    decide (x.mQueueSizeOps = y.mQueueSizeOps)

/-! ### Association-list map lemmas -/

theorem findAcct_updateAcct_self (m : AccountStates) (k : Nat)
    (f : AccountState → AccountState) :
    findAcct (updateAcct m k f) k = (findAcct m k).map f := by
  induction m with
  | nil => simp [findAcct, updateAcct]
  | cons p rest ih =>
    obtain ⟨a, s⟩ := p
    by_cases h : a = k
    · simp [findAcct, updateAcct, h]
    · simp [findAcct, updateAcct, h, ih]

theorem findAcct_updateAcct_ne (m : AccountStates) (k k' : Nat)
    (f : AccountState → AccountState) (h : k' ≠ k) :
    findAcct (updateAcct m k f) k' = findAcct m k' := by
  induction m with
  | nil => simp [findAcct, updateAcct]
  | cons p rest ih =>
    obtain ⟨a, s⟩ := p
    by_cases ha : a = k
    · subst ha
      simp [findAcct, updateAcct, Ne.symm h]
    · by_cases ha' : a = k'
      · subst ha'
        simp [findAcct, updateAcct, ha]
      · simp [findAcct, updateAcct, ha, ha', ih]

theorem findAcct_of_not_mem (m : AccountStates) (k : Nat)
    (h : k ∉ m.map Prod.fst) : findAcct m k = none := by
  induction m with
  | nil => simp [findAcct]
  | cons p rest ih =>
    obtain ⟨a, s⟩ := p
    simp only [List.map_cons, List.mem_cons, not_or] at h
    have hne : ¬ a = k := fun hEq => h.1 hEq.symm
    simp only [findAcct, if_neg hne]
    exact ih h.2

theorem findAcct_eraseAcct_ne (m : AccountStates) (k k' : Nat) (h : k' ≠ k) :
    findAcct (eraseAcct m k) k' = findAcct m k' := by
  induction m with
  | nil => simp [findAcct, eraseAcct]
  | cons p rest ih =>
    obtain ⟨a, s⟩ := p
    by_cases ha : a = k
    · subst ha
      simp [findAcct, eraseAcct, Ne.symm h]
    · by_cases ha' : a = k'
      · subst ha'
        simp [findAcct, eraseAcct, ha]
      · simp [findAcct, eraseAcct, ha, ha', ih]

theorem findAcct_eraseAcct_self (m : AccountStates) (k : Nat)
    (hnd : (m.map Prod.fst).Nodup) :
    findAcct (eraseAcct m k) k = none := by
  induction m with
  | nil => simp [findAcct, eraseAcct]
  | cons p rest ih =>
    obtain ⟨a, s⟩ := p
    simp only [List.map_cons, List.nodup_cons] at hnd
    by_cases ha : a = k
    · subst ha
      simp only [eraseAcct, if_pos rfl]
      exact findAcct_of_not_mem rest a hnd.1
    · simp only [eraseAcct, if_neg ha, findAcct, if_neg ha]
      exact ih hnd.2

theorem findAcct_emplaceAcct_ne (m : AccountStates) (k k' : Nat)
    (v : AccountState) (h : k' ≠ k) :
    findAcct (emplaceAcct m k v) k' = findAcct m k' := by
  induction m with
  | nil => simp [findAcct, emplaceAcct, Ne.symm h]
  | cons p rest ih =>
    obtain ⟨a, s⟩ := p
    by_cases h1 : k < a
    · simp [emplaceAcct, h1, findAcct, Ne.symm h]
    · by_cases h2 : k = a
      · simp [emplaceAcct, h1, h2]
      · by_cases ha' : a = k'
        · subst ha'
          simp [emplaceAcct, h1, h2, findAcct]
        · simp [emplaceAcct, h1, h2, findAcct, ha', ih]

theorem emplaceAcct_present (m : AccountStates) (k : Nat) (v : AccountState)
    (hsorted : List.Chain' (· < ·) (m.map Prod.fst)) (s : AccountState)
    (h : findAcct m k = some s) : emplaceAcct m k v = m := by
  induction m with
  | nil => simp [findAcct] at h
  | cons p rest ih =>
    obtain ⟨a, s0⟩ := p
    by_cases h2 : a = k
    · subst h2
      simp [emplaceAcct, lt_irrefl]
    · simp only [findAcct, if_neg h2] at h
      have hmem : k ∈ rest.map Prod.fst := by
        clear ih hsorted
        induction rest with
        | nil => simp [findAcct] at h
        | cons p2 r2 ih2 =>
          obtain ⟨a2, s2⟩ := p2
          by_cases h3 : a2 = k
          · simp [h3]
          · simp only [findAcct, if_neg h3] at h
            simp [ih2 h]
      have hpair : List.Pairwise (· < ·) (a :: rest.map Prod.fst) := by
        rw [← List.chain'_iff_pairwise]
        simpa using hsorted
      have hlt : a < k := (List.pairwise_cons.mp hpair).1 k hmem
      have hsorted2 : List.Chain' (· < ·) (rest.map Prod.fst) := by
        have := List.Chain'.tail (l := a :: rest.map Prod.fst) (by simpa using hsorted)
        simpa using this
      simp only [emplaceAcct, if_neg (Nat.not_lt.mpr (Nat.le_of_lt hlt)),
        if_neg (Ne.symm (Nat.ne_of_lt hlt))]
      rw [ih hsorted2 h]

theorem findAcct_emplaceAcct_absent (m : AccountStates) (k : Nat)
    (v : AccountState) (h : findAcct m k = none) :
    findAcct (emplaceAcct m k v) k = some v := by
  induction m with
  | nil => simp [findAcct, emplaceAcct]
  | cons p rest ih =>
    obtain ⟨a, s⟩ := p
    by_cases h1 : k < a
    · simp [emplaceAcct, h1, findAcct]
    · by_cases h2 : k = a
      · simp [findAcct, h2.symm] at h
      · have hne : ¬ a = k := fun hEq => h2 hEq.symm
        simp only [findAcct, if_neg hne] at h
        simp only [emplaceAcct, if_neg h1, if_neg h2, findAcct, if_neg hne]
        exact ih h

theorem updateAcct_updateAcct (m : AccountStates) (k : Nat)
    (f g : AccountState → AccountState) :
    updateAcct (updateAcct m k f) k g = updateAcct m k (fun s => g (f s)) := by
  induction m with
  | nil => simp [updateAcct]
  | cons p rest ih =>
    obtain ⟨a, s⟩ := p
    by_cases ha : a = k
    · simp [updateAcct, ha]
    · simp [updateAcct, ha, ih]

theorem updateAcct_absent (m : AccountStates) (k : Nat)
    (f : AccountState → AccountState) (h : findAcct m k = none) :
    updateAcct m k f = m := by
  induction m with
  | nil => simp [updateAcct]
  | cons p rest ih =>
    obtain ⟨a, s⟩ := p
    by_cases ha : a = k
    · simp [findAcct, ha] at h
    · simp only [findAcct, if_neg ha] at h
      simp [updateAcct, ha, ih h]

theorem contains_insertHash_self (s : List Nat) (h : Nat) :
    (insertHash s h).contains h = true := by
  unfold insertHash
  split
  · next hc => exact hc
  · next hc => simp

theorem adjustAt_zero (l : List Int) (i : Nat) : adjustAt l i 0 = l := by
  unfold adjustAt
  induction l generalizing i with
  | nil => simp
  | cons x xs ih =>
    cases i with
    | zero => simp [List.getD]
    | succ n => simpa [List.getD] using ih n

/-- Sum of `getNumOperations` over a list of transactions (as `Int`). -/
def opsSum (l : List Tx) : Int := (l.map (fun t => (t.numOps : Int))).sum

/-- Sum of `getFeeBid` over a list of transactions. -/
def feeSum (l : List Tx) : Int := (l.map Tx.feeBid).sum

/-! ### C10: AccountTxQueueInfo equality ignores the age field -/

/-- C10: equality of two `AccountTxQueueInfo` values compares exactly
`mMaxSeq`, `mTotalFees` and `mQueueSizeOps` and ignores `mAge`; in
particular two infos that differ only in the age field compare equal. -/
theorem infoEq_ignores_age (x y : AccountTxQueueInfo) :
    infoEq x y = true ↔
      x.mMaxSeq = y.mMaxSeq ∧ x.mTotalFees = y.mTotalFees ∧
        x.mQueueSizeOps = y.mQueueSizeOps := by
  simp [infoEq, and_assoc]

/-! ### C6: FeeBump with sequence number out of range is rejected BadSeq -/

/-- C6: a FeeBump admission whose `seqNum` lies outside
`[first queued seq, last queued seq + 1]` for a source account with a
non-empty queue returns `Error` with code `BadSeq` and leaves the queue
unchanged. -/
theorem feeBump_out_of_range_badSeq (q : TxQueue) (env : LedgerEnv) (tx : Tx)
    (s : AccountState) (t : Tx) (ts : List Tx)
    (hban : isBanned q tx.fullHash = false)
    (hacct : findAcct q.mAccountStates tx.sourceID = some s)
    (htxs : s.mTransactions = t :: ts)
    (henv : tx.envType = EnvType.FeeBump)
    (hout : tx.seqNum < t.seqNum ∨ tx.seqNum > ((t :: ts).getLastD t).seqNum + 1) :
    tryAdd q env tx = (AddResult.Error, some RCode.BadSeq, q) := by
  have hfind : findBySeq tx.seqNum (t :: ts) = none := by
    simp only [findBySeq]
    rw [if_pos]
    exact hout
  have hphase : canAddPhase1 q tx = Sum.inl (AddResult.Error, some RCode.BadSeq) := by
    unfold canAddPhase1
    rw [hacct]
    simp only [htxs]
    rw [if_neg (by simp [henv])]
    rw [hfind]
  have hcan : canAdd q env tx = ⟨AddResult.Error, some RCode.BadSeq, none, q⟩ := by
    unfold canAdd
    rw [hban]
    simp only [Bool.false_eq_true, if_false, hphase]
  unfold tryAdd
  rw [hcan]
  simp

/-! ### C1: the replace-by-fee rule -/

theorem canReplaceByFee_iff (tx oldTx : Tx) :
    canReplaceByFee tx oldTx = true ↔
      tx.feeBid * ((max 1 oldTx.numOps : Nat) : Int) ≥
        10 * oldTx.feeBid * ((max 1 tx.numOps : Nat) : Int) := by
  simp only [canReplaceByFee, FEE_MULTIPLIER]
  rw [decide_eq_true_iff]
  constructor
  · intro h
    calc 10 * oldTx.feeBid * ((max 1 tx.numOps : Nat) : Int)
        = 10 * (oldTx.feeBid * ((max 1 tx.numOps : Nat) : Int)) := by ring
      _ ≤ tx.feeBid * ((max 1 oldTx.numOps : Nat) : Int) := h
  · intro h
    calc (10 : Int) * (oldTx.feeBid * ((max 1 tx.numOps : Nat) : Int))
        = 10 * oldTx.feeBid * ((max 1 tx.numOps : Nat) : Int) := by ring
      _ ≤ tx.feeBid * ((max 1 oldTx.numOps : Nat) : Int) := h

theorem canReplaceByFee128_eq (tx oldTx : Tx)
    (hb1 : 0 ≤ tx.feeBid) (hb2 : tx.feeBid < 2 ^ 63)
    (hb3 : 0 ≤ oldTx.feeBid) (hb4 : oldTx.feeBid < 2 ^ 63)
    (hb5 : tx.numOps < 2 ^ 32) (hb6 : oldTx.numOps < 2 ^ 32) :
    canReplaceByFee128 tx oldTx = canReplaceByFee tx oldTx := by
  simp only [canReplaceByFee128, canReplaceByFee, FEE_MULTIPLIER]
  have hNewOps : (max 1 tx.numOps : Nat) < 2 ^ 32 := by
    rcases Nat.eq_zero_or_pos tx.numOps with h0 | h0
    · simp [h0]
    · rw [Nat.max_eq_right h0]
      exact hb5
  have hOldOps : (max 1 oldTx.numOps : Nat) < 2 ^ 32 := by
    rcases Nat.eq_zero_or_pos oldTx.numOps with h0 | h0
    · simp [h0]
    · rw [Nat.max_eq_right h0]
      exact hb6
  have hNewFee : tx.feeBid.toNat < 2 ^ 63 := by omega
  have hOldFee : oldTx.feeBid.toNat < 2 ^ 63 := by omega
  have hv1 : tx.feeBid.toNat * (max 1 oldTx.numOps : Nat) < 2 ^ 128 := by
    calc tx.feeBid.toNat * (max 1 oldTx.numOps : Nat)
        ≤ 2 ^ 63 * 2 ^ 32 := Nat.mul_le_mul (Nat.le_of_lt hNewFee) (Nat.le_of_lt hOldOps)
      _ < 2 ^ 128 := by norm_num
  have hv2 : 10 * (oldTx.feeBid.toNat * (max 1 tx.numOps : Nat)) < 2 ^ 128 := by
    calc 10 * (oldTx.feeBid.toNat * (max 1 tx.numOps : Nat))
        ≤ 10 * (2 ^ 63 * 2 ^ 32) := by
          exact Nat.mul_le_mul_left 10
            (Nat.mul_le_mul (Nat.le_of_lt hOldFee) (Nat.le_of_lt hNewOps))
      _ < 2 ^ 128 := by norm_num
  rw [Nat.mod_eq_of_lt hv1]
  rw [Nat.mod_eq_of_lt (by omega : oldTx.feeBid.toNat * (max 1 tx.numOps : Nat) < 2 ^ 128)]
  rw [Nat.mod_eq_of_lt hv2]
  apply decide_eq_decide.mpr
  rw [← Int.toNat_of_nonneg hb1, ← Int.toNat_of_nonneg hb3]
  push_cast
  constructor
  · intro h
    exact_mod_cast h
  · intro h
    exact_mod_cast h

/-- C1: replace-by-fee is permitted iff
`fee_bid(tx) * max(1, num_ops(old)) ≥ 10 * fee_bid(old) * max(1, num_ops(tx))`;
the 128-bit (modular) cross-multiplication computes exactly this comparison
(no overflow) for int64 fees and uint32 op counts; and when the inequality
fails for the queued transaction at the same sequence number, `tryAdd`
returns `Error` with code `InsufficientFee` and the queue is unchanged (the
original transaction remains queued). -/
theorem replaceByFee_rule (q : TxQueue) (env : LedgerEnv) (tx oldTx : Tx)
    (s : AccountState) (t : Tx) (ts : List Tx) (i : Nat)
    (hi : i < (t :: ts).length)
    (hold : (t :: ts).get ⟨i, hi⟩ = oldTx)
    (hban : isBanned q tx.fullHash = false)
    (hacct : findAcct q.mAccountStates tx.sourceID = some s)
    (htxs : s.mTransactions = t :: ts)
    (henv : tx.envType = EnvType.FeeBump)
    (hfind : findBySeq tx.seqNum (t :: ts) = some i)
    (hdup : isDuplicateTx oldTx tx = false)
    (hb1 : 0 ≤ tx.feeBid) (hb2 : tx.feeBid < 2 ^ 63)
    (hb3 : 0 ≤ oldTx.feeBid) (hb4 : oldTx.feeBid < 2 ^ 63)
    (hb5 : tx.numOps < 2 ^ 32) (hb6 : oldTx.numOps < 2 ^ 32) :
    (canReplaceByFee tx oldTx = true ↔
      tx.feeBid * ((max 1 oldTx.numOps : Nat) : Int) ≥
        10 * oldTx.feeBid * ((max 1 tx.numOps : Nat) : Int))
    ∧ canReplaceByFee128 tx oldTx = canReplaceByFee tx oldTx
    ∧ (tx.feeBid * ((max 1 oldTx.numOps : Nat) : Int) <
        10 * oldTx.feeBid * ((max 1 tx.numOps : Nat) : Int) →
      tryAdd q env tx = (AddResult.Error, some RCode.InsufficientFee, q)) := by
  refine ⟨canReplaceByFee_iff tx oldTx,
    canReplaceByFee128_eq tx oldTx hb1 hb2 hb3 hb4 hb5 hb6, ?_⟩
  intro hlt
  have hrep : canReplaceByFee tx oldTx = false := by
    rw [← Bool.not_eq_true]
    intro hc
    exact absurd ((canReplaceByFee_iff tx oldTx).mp hc) (not_le.mpr hlt)
  have hphase : canAddPhase1 q tx =
      Sum.inl (AddResult.Error, some RCode.InsufficientFee) := by
    unfold canAddPhase1
    rw [hacct]
    simp only [htxs]
    rw [if_neg (by simp [henv])]
    rw [hfind]
    simp only [dif_pos hi, hold, hdup, Bool.false_eq_true, if_false, hrep,
      not_false_eq_true, if_true]
  have hcan : canAdd q env tx =
      ⟨AddResult.Error, some RCode.InsufficientFee, none, q⟩ := by
    unfold canAdd
    rw [hban]
    simp only [Bool.false_eq_true, if_false, hphase]
  unfold tryAdd
  rw [hcan]
  simp

theorem keys_updateAcct (m : AccountStates) (k : Nat)
    (f : AccountState → AccountState) :
    (updateAcct m k f).map Prod.fst = m.map Prod.fst := by
  induction m with
  | nil => simp [updateAcct]
  | cons p rest ih =>
    obtain ⟨a, s⟩ := p
    by_cases ha : a = k
    · simp [updateAcct, ha]
    · simp [updateAcct, ha, ih]

theorem getLastD_cons_get (t : Tx) (ts : List Tx) :
    (t :: ts).getLastD t = (t :: ts).get ⟨ts.length, by simp⟩ := by
  induction ts generalizing t with
  | nil => rfl
  | cons t2 ts2 ih =>
    rw [List.getLastD_cons]
    have h2 := ih t2
    simp only [List.length_cons]
    rw [List.get_cons_succ]
    calc (t2 :: ts2).getLastD t = (t2 :: ts2).getLastD t2 := by
          rw [List.getLastD_cons, List.getLastD_cons]
      _ = (t2 :: ts2).get ⟨ts2.length, by simp⟩ := h2

/-! ### C2: FeeBump at last queued sequence + 1 appends -/

/-- C2: a FeeBump admission for a source account with a non-empty
contiguous queue whose `seqNum` equals the last queued `seqNum + 1` is not
a replacement: `findBySeq` succeeds with the end slot, the validator is
consulted with `prior_seq = seqNum - 1` (a failing validator at that
sequence yields `Error`), and on success the transaction is appended at
the tail of the queue. -/
theorem feeBump_append_at_tail (q : TxQueue) (env : LedgerEnv) (tx : Tx)
    (s : AccountState) (t : Tx) (ts : List Tx)
    (hsorted : List.Chain' (· < ·) (q.mAccountStates.map Prod.fst))
    (hban : isBanned q tx.fullHash = false)
    (hacct : findAcct q.mAccountStates tx.sourceID = some s)
    (htxs : s.mTransactions = t :: ts)
    (henv : tx.envType = EnvType.FeeBump)
    (hcontig : ∀ j (hj : j < (t :: ts).length),
      ((t :: ts).get ⟨j, hj⟩).seqNum = t.seqNum + j)
    (hseq : tx.seqNum = ((t :: ts).getLastD t).seqNum + 1) :
    findBySeq tx.seqNum (t :: ts) = some (t :: ts).length
    ∧ ((tx.numOps : Int) + q.mQueueSizeOps ≤ (maxQueueSizeOps q env : Int) →
        env.checkValid tx (tx.seqNum - 1) = false →
        canAdd q env tx = ⟨AddResult.Error, none, none, q⟩)
    ∧ ((tx.numOps : Int) + q.mQueueSizeOps ≤ (maxQueueSizeOps q env : Int) →
        env.checkValid tx (tx.seqNum - 1) = true →
        ¬ (env.availableBalance tx.feeSourceID - tx.feeBid <
            (findAcct q.mAccountStates tx.feeSourceID).elim 0 AccountState.mTotalFees) →
        (tryAdd q env tx).1 = AddResult.Pending
        ∧ (findAcct (tryAdd q env tx).2.2.mAccountStates tx.sourceID).map
            AccountState.mTransactions = some ((t :: ts) ++ [tx])) := by
  have hlast : ((t :: ts).getLastD t).seqNum = t.seqNum + ts.length := by
    rw [getLastD_cons_get]
    have := hcontig ts.length (by simp)
    simpa using this
  rw [hlast] at hseq
  have hfind : findBySeq tx.seqNum (t :: ts) = some (t :: ts).length := by
    simp only [findBySeq]
    rw [if_neg]
    · congr 1
      have hsub : tx.seqNum - t.seqNum = ((t :: ts).length : Int) := by
        simp only [List.length_cons]
        push_cast
        omega
      rw [hsub]
      simp
    · rw [hlast]
      push_neg
      constructor <;> omega
  have hphase : canAddPhase1 q tx =
      Sum.inr (tx.feeBid, (tx.numOps : Int), tx.seqNum - 1, none) := by
    unfold canAddPhase1
    rw [hacct]
    simp only [htxs]
    rw [if_neg (by simp [henv])]
    rw [hfind]
    dsimp only
    rw [dif_neg (lt_irrefl _)]
  refine ⟨hfind, ?_, ?_⟩
  · intro hcap hvalidF
    unfold canAdd
    rw [hban]
    simp only [Bool.false_eq_true, if_false, hphase]
    rw [if_neg (not_lt.mpr hcap)]
    rw [if_pos (by simp [hvalidF])]
  · intro hcap hvalid hbal
    have hcan : canAdd q env tx = ⟨AddResult.Pending, none, none, q⟩ := by
      unfold canAdd
      rw [hban]
      simp only [Bool.false_eq_true, if_false, hphase]
      rw [if_neg (not_lt.mpr hcap)]
      rw [if_neg (by simp [hvalid])]
      cases hfs : findAcct q.mAccountStates tx.feeSourceID with
      | none =>
        rw [hfs] at hbal
        simp only [Option.elim] at hbal
        rw [if_neg hbal]
      | some fs =>
        rw [hfs] at hbal
        simp only [Option.elim] at hbal
        rw [if_neg hbal]
    have htry : tryAdd q env tx =
        (AddResult.Pending, none,
          commitTail
            { q with
              mAccountStates :=
                updateAcct q.mAccountStates tx.sourceID
                  (fun s2 => { s2 with mTransactions := s2.mTransactions ++ [tx] }),
              mSizeByAge := adjustAt q.mSizeByAge s.mAge 1 } tx) := by
      unfold tryAdd
      rw [hcan]
      simp only [ne_eq, not_true_eq_false, Bool.false_eq_true, if_false,
        reduceCtorEq, if_neg]
      rw [hacct]
      simp only [hacct, Option.getD_some]
    refine ⟨by rw [htry], ?_⟩
    rw [htry]
    simp only [commitTail]
    rw [updateAcct_updateAcct]
    by_cases hfs : tx.feeSourceID = tx.sourceID
    · rw [hfs]
      rw [emplaceAcct_present _ _ _ (by rw [keys_updateAcct]; exact hsorted)
        _ (by rw [findAcct_updateAcct_self, hacct]; rfl)]
      rw [updateAcct_updateAcct, findAcct_updateAcct_self, hacct]
      simp [htxs]
    · have hne : tx.sourceID ≠ tx.feeSourceID := fun h => hfs h.symm
      rw [findAcct_updateAcct_ne _ tx.feeSourceID tx.sourceID _ hne]
      rw [findAcct_emplaceAcct_ne _ tx.feeSourceID tx.sourceID _ hne]
      rw [findAcct_updateAcct_self, hacct]
      simp [htxs]

/-! ### C5: the reservation (InsufficientBalance) check -/

/-- C5: once the earlier admission phases pass (here: a FeeBump
replacement whose fee rule and validator succeed), `tryAdd` returns
`Error` with code `InsufficientBalance` — leaving the state unchanged —
iff the fee-source account's spendable balance minus the marginal fee
(`feeBid(tx)` reduced by the replaced transaction's `feeBid` when the
replaced transaction has the same fee source) is strictly below that
account's reserved `mTotalFees` (0 when the fee source is absent). -/
theorem reservation_check (q : TxQueue) (env : LedgerEnv) (tx oldTx : Tx)
    (s : AccountState) (t : Tx) (ts : List Tx) (i : Nat)
    (hi : i < (t :: ts).length)
    (hold : (t :: ts).get ⟨i, hi⟩ = oldTx)
    (hban : isBanned q tx.fullHash = false)
    (hacct : findAcct q.mAccountStates tx.sourceID = some s)
    (htxs : s.mTransactions = t :: ts)
    (henv : tx.envType = EnvType.FeeBump)
    (hfind : findBySeq tx.seqNum (t :: ts) = some i)
    (hdup : isDuplicateTx oldTx tx = false)
    (hrep : canReplaceByFee tx oldTx = true)
    (hcap : (tx.numOps : Int) - (oldTx.numOps : Int) + q.mQueueSizeOps ≤
      (maxQueueSizeOps q env : Int))
    (hvalid : env.checkValid tx (tx.seqNum - 1) = true) :
    tryAdd q env tx = (AddResult.Error, some RCode.InsufficientBalance, q) ↔
      env.availableBalance tx.feeSourceID -
          (tx.feeBid - (if oldTx.feeSourceID = tx.feeSourceID then oldTx.feeBid else 0)) <
        (findAcct q.mAccountStates tx.feeSourceID).elim 0 AccountState.mTotalFees := by
  have hphase : canAddPhase1 q tx =
      Sum.inr (tx.feeBid -
          (if oldTx.feeSourceID = tx.feeSourceID then oldTx.feeBid else 0),
        (tx.numOps : Int) - (oldTx.numOps : Int), tx.seqNum - 1, some i) := by
    unfold canAddPhase1
    rw [hacct]
    simp only [htxs]
    rw [if_neg (by simp [henv])]
    rw [hfind]
    simp only [dif_pos hi, hold, hdup, Bool.false_eq_true, if_false, hrep,
      not_true_eq_false, if_false]
    by_cases hfs : oldTx.feeSourceID = tx.feeSourceID
    · rw [if_pos hfs, if_pos hfs]
    · rw [if_neg hfs, if_neg hfs]
      rw [sub_zero]
  have hfees : (match findAcct q.mAccountStates tx.feeSourceID with
      | none => (0 : Int)
      | some fs => fs.mTotalFees) =
      (findAcct q.mAccountStates tx.feeSourceID).elim 0 AccountState.mTotalFees := by
    cases findAcct q.mAccountStates tx.feeSourceID <;> rfl
  by_cases hb : env.availableBalance tx.feeSourceID -
      (tx.feeBid - (if oldTx.feeSourceID = tx.feeSourceID then oldTx.feeBid else 0)) <
      (findAcct q.mAccountStates tx.feeSourceID).elim 0 AccountState.mTotalFees
  · have hcan : canAdd q env tx =
        ⟨AddResult.Error, some RCode.InsufficientBalance, none, q⟩ := by
      unfold canAdd
      rw [hban]
      simp only [Bool.false_eq_true, if_false, hphase]
      rw [if_neg (not_lt.mpr hcap)]
      rw [if_neg (by simp [hvalid])]
      rw [hfees, if_pos hb]
    have hdone : tryAdd q env tx = (AddResult.Error, some RCode.InsufficientBalance, q) := by
      unfold tryAdd
      rw [hcan]
      simp
    simp [hdone, hb]
  · have hcan : canAdd q env tx =
        ⟨AddResult.Pending, none, some i, q⟩ := by
      unfold canAdd
      rw [hban]
      simp only [Bool.false_eq_true, if_false, hphase]
      rw [if_neg (not_lt.mpr hcap)]
      rw [if_neg (by simp [hvalid])]
      rw [hfees, if_neg hb]
    have hres : (tryAdd q env tx).1 = AddResult.Pending := by
      unfold tryAdd
      rw [hcan]
      simp
    constructor
    · intro h
      rw [h] at hres
      simp at hres
    · intro h
      exact absurd h hb

/-! ### C7: capacity rejection bans the hash and changes nothing else -/

theorem updateAcct_eq_self (m : AccountStates) (k : Nat)
    (f : AccountState → AccountState) (s : AccountState)
    (h : findAcct m k = some s) (h2 : f s = s) : updateAcct m k f = m := by
  induction m with
  | nil => rfl
  | cons p rest ih =>
    obtain ⟨a, v⟩ := p
    by_cases ha : a = k
    · subst ha
      simp only [findAcct, if_true, eq_self_iff_true, Option.some_inj] at h
      subst h
      simp [updateAcct, h2]
    · simp only [findAcct, if_neg ha] at h
      simp [updateAcct, ha, ih h]

theorem insertFront_accounts (q : TxQueue) (h : Nat) :
    (insertFront q h).mAccountStates = q.mAccountStates := by
  unfold insertFront
  cases q.mBannedTransactions <;> rfl

theorem insertFront_queueOps (q : TxQueue) (h : Nat) :
    (insertFront q h).mQueueSizeOps = q.mQueueSizeOps := by
  unfold insertFront
  cases q.mBannedTransactions <;> rfl

theorem insertFront_sizes (q : TxQueue) (h : Nat) :
    (insertFront q h).mSizeByAge = q.mSizeByAge := by
  unfold insertFront
  cases q.mBannedTransactions <;> rfl

/-- Banning a single transaction whose hash matches nothing queued for its
source account only inserts the hash into the front ban slot. -/
theorem ban_single_fresh (q : TxQueue) (tx : Tx) (s : AccountState)
    (t : Tx) (ts : List Tx)
    (hacct : findAcct q.mAccountStates tx.sourceID = some s)
    (htxs : s.mTransactions = t :: ts)
    (hfresh : ∀ u ∈ t :: ts, u.fullHash ≠ tx.fullHash) :
    ban q [tx] = insertFront q tx.fullHash := by
  have hgroup : groupByAccount [tx] = [(tx.sourceID, [tx])] := rfl
  unfold ban
  rw [hgroup]
  simp only [List.foldl_cons, List.foldl_nil]
  set q1 := insertFront q tx.fullHash with hq1
  have hacct1 : findAcct q1.mAccountStates tx.sourceID = some s := by
    rw [hq1, insertFront_accounts]
    exact hacct
  unfold banAccount
  rw [hacct1]
  simp only [htxs]
  have hft : findTx tx (t :: ts) = none := by
    unfold findTx
    cases hf : findBySeq tx.seqNum (t :: ts) with
    | none => rfl
    | some j =>
      dsimp only
      by_cases hj : j < (t :: ts).length
      · rw [dif_pos hj]
        rw [if_neg (hfresh _ (List.get_mem _ _ hj))]
      · rw [dif_neg hj]
  have hlow : banFindLowest [tx] (t :: ts) = none := by
    simp [banFindLowest, hft]
  rw [hlow]
  simp only [List.drop_length, List.foldl_nil]
  rw [sub_self, neg_zero, adjustAt_zero]
  have hq2 : { q1 with mSizeByAge := q1.mSizeByAge } = q1 := rfl
  rw [hq2]
  unfold dropTransactions
  rw [hacct1]
  simp only [htxs, List.drop_length, Nat.sub_self, List.take_zero,
    List.take_nil]
  unfold dropLoop
  rw [updateAcct_eq_self _ _ _ s hacct1 (by rw [List.take_append_drop])]
  rw [hacct1]
  simp [htxs]

/-- C7: when a non-banned, non-duplicate Plain admission's `numOps` plus
the global queued ops exceed `maxQueueSizeOps` (the last-closed ledger's
op cap times the pool multiplier), `tryAdd` returns `TryAgainLater` and
the only state change is the insertion of the transaction's hash into the
front ban slot: nothing is dropped and no counter changes. -/
theorem capacity_ban_only (q : TxQueue) (env : LedgerEnv) (tx : Tx)
    (s : AccountState) (t : Tx) (ts : List Tx)
    (hban : isBanned q tx.fullHash = false)
    (hacct : findAcct q.mAccountStates tx.sourceID = some s)
    (htxs : s.mTransactions = t :: ts)
    (henv : tx.envType = EnvType.Plain)
    (hnodup : ∀ u ∈ t :: ts, isDuplicateTx u tx = false)
    (hfresh : ∀ u ∈ t :: ts, u.fullHash ≠ tx.fullHash)
    (hcap : (tx.numOps : Int) + q.mQueueSizeOps > (maxQueueSizeOps q env : Int)) :
    tryAdd q env tx = (AddResult.TryAgainLater, none, insertFront q tx.fullHash)
    ∧ (insertFront q tx.fullHash).mAccountStates = q.mAccountStates
    ∧ (insertFront q tx.fullHash).mQueueSizeOps = q.mQueueSizeOps := by
  have hphase : canAddPhase1 q tx =
      Sum.inr (tx.feeBid, (tx.numOps : Int), ((t :: ts).getLastD t).seqNum, none) := by
    unfold canAddPhase1
    rw [hacct]
    simp only [htxs]
    rw [if_pos (by simp [henv])]
    have hdup : (match findBySeq tx.seqNum (t :: ts) with
        | none => false
        | some i =>
          if h : i < (t :: ts).length then
            isDuplicateTx ((t :: ts).get ⟨i, h⟩) tx
          else false) = false := by
      cases hf : findBySeq tx.seqNum (t :: ts) with
      | none => rfl
      | some j =>
        dsimp only
        by_cases hj : j < (t :: ts).length
        · rw [dif_pos hj]
          exact hnodup _ (List.get_mem _ _ hj)
        · rw [dif_neg hj]
    rw [hdup]
    simp
  have hcan : canAdd q env tx =
      ⟨AddResult.TryAgainLater, none, none, ban q [tx]⟩ := by
    unfold canAdd
    rw [hban]
    simp only [Bool.false_eq_true, if_false, hphase]
    rw [if_pos hcap]
  have hbe : ban q [tx] = insertFront q tx.fullHash :=
    ban_single_fresh q tx s t ts hacct htxs hfresh
  refine ⟨?_, insertFront_accounts q tx.fullHash, insertFront_queueOps q tx.fullHash⟩
  unfold tryAdd
  rw [hcan]
  simp [hbe]

/-! ### C9: a banned hash stays banned for banDepth shifts, then expires -/

theorem tryAdd_banned (q : TxQueue) (env : LedgerEnv) (tx : Tx)
    (h : isBanned q tx.fullHash = true) :
    tryAdd q env tx = (AddResult.TryAgainLater, none, q) := by
  unfold tryAdd canAdd
  rw [h]
  simp

theorem ban_empty_accounts (q : TxQueue) (tx : Tx)
    (hacc : q.mAccountStates = []) :
    ban q [tx] = insertFront q tx.fullHash := by
  unfold ban
  have hgroup : groupByAccount [tx] = [(tx.sourceID, [tx])] := rfl
  rw [hgroup]
  simp only [List.foldl_cons, List.foldl_nil]
  unfold banAccount
  rw [insertFront_accounts, hacc]
  rfl

theorem rot_iter (r : List (List Nat)) (m : Nat) (hm : m ≤ r.length) :
    (fun l => ([] : List Nat) :: l.dropLast)^[m] r =
      List.replicate m ([] : List Nat) ++ r.take (r.length - m) := by
  induction m with
  | zero => simp
  | succ n ih =>
    have hn : n ≤ r.length := Nat.le_of_succ_le hm
    rw [Function.iterate_succ_apply', ih hn]
    have hpos : 1 ≤ r.length - n := by omega
    have hne : r.take (r.length - n) ≠ [] := by
      intro hc
      have := congrArg List.length hc
      simp only [List.length_take, List.length_nil] at this
      omega
    show ([] : List Nat) ::
        (List.replicate n ([] : List Nat) ++ r.take (r.length - n)).dropLast =
      List.replicate (n + 1) ([] : List Nat) ++ r.take (r.length - (n + 1))
    rw [List.dropLast_append_of_ne_nil _ hne]
    rw [List.dropLast_eq_take, List.length_take, List.take_take]
    have h1 : min (min (r.length - n) r.length - 1) (r.length - n) =
        r.length - (n + 1) := by omega
    rw [h1]
    rw [List.replicate_succ]
    rfl

theorem shift_empty_accounts (q : TxQueue) (hacc : q.mAccountStates = []) :
    shift q =
      { q with
        mBannedTransactions := [] :: q.mBannedTransactions.dropLast,
        mSizeByAge :=
          List.replicate q.mPendingDepth 0 ++ q.mSizeByAge.drop q.mPendingDepth } := by
  unfold shift
  rw [hacc]
  rfl

theorem shift_iter_empty (q : TxQueue) (hacc : q.mAccountStates = []) (k : Nat) :
    (shift^[k] q).mAccountStates = [] ∧
      (shift^[k] q).mBannedTransactions =
        (fun l => ([] : List Nat) :: l.dropLast)^[k] q.mBannedTransactions := by
  induction k with
  | zero => exact ⟨hacc, rfl⟩
  | succ n ih =>
    rw [Function.iterate_succ_apply', Function.iterate_succ_apply']
    rw [shift_empty_accounts _ ih.1]
    exact ⟨ih.1, by rw [ih.2]⟩

/-- C9: after `ban({tx})` (here from a state with no queued transactions,
so no later eviction re-inserts the hash), every `tryAdd(tx)` returns
`TryAgainLater` while fewer than `banDepth` (= the ban-ring length)
`shift` calls have occurred, and after `banDepth` shifts the hash is in
no ban-ring slot, so the ban check no longer rejects `tx`. -/
theorem ban_shift_expiry (q : TxQueue) (env : LedgerEnv) (tx : Tx)
    (hacc : q.mAccountStates = [])
    (hne : q.mBannedTransactions ≠ []) :
    (∀ k, k < q.mBannedTransactions.length →
      tryAdd (shift^[k] (ban q [tx])) env tx =
        (AddResult.TryAgainLater, none, shift^[k] (ban q [tx])))
    ∧ isBanned (shift^[q.mBannedTransactions.length] (ban q [tx]))
        tx.fullHash = false := by
  obtain ⟨f, rest, hr⟩ := List.exists_cons_of_ne_nil hne
  have hb : ban q [tx] = insertFront q tx.fullHash := ban_empty_accounts q tx hacc
  have hbring : (ban q [tx]).mBannedTransactions =
      insertHash f tx.fullHash :: rest := by
    rw [hb]
    unfold insertFront
    rw [hr]
  have hbacc : (ban q [tx]).mAccountStates = [] := by
    rw [hb, insertFront_accounts, hacc]
  have hlen : (insertHash f tx.fullHash :: rest).length =
      q.mBannedTransactions.length := by
    rw [hr]
    simp
  constructor
  · intro k hk
    apply tryAdd_banned
    obtain ⟨hacck, hringk⟩ := shift_iter_empty (ban q [tx]) hbacc k
    unfold isBanned
    rw [hringk, hbring]
    rw [rot_iter _ k (by rw [hlen]; omega)]
    obtain ⟨m, hm⟩ : ∃ m, (insertHash f tx.fullHash :: rest).length - k = m + 1 :=
      ⟨(insertHash f tx.fullHash :: rest).length - k - 1, by rw [hlen]; omega⟩
    rw [hm]
    simp only [List.take_succ_cons, List.any_append, List.any_cons]
    rw [contains_insertHash_self]
    simp
  · obtain ⟨hacck, hringk⟩ :=
      shift_iter_empty (ban q [tx]) hbacc q.mBannedTransactions.length
    unfold isBanned
    rw [hringk, hbring]
    rw [rot_iter _ _ (by rw [hlen])]
    rw [hlen, Nat.sub_self, List.take_zero, List.append_nil]
    simp [List.eq_of_mem_replicate]

/-! ### Op and fee sums over transaction batches -/

theorem opsSum_cons (t : Tx) (l : List Tx) :
    opsSum (t :: l) = (t.numOps : Int) + opsSum l := by
  simp [opsSum]

theorem feeSum_cons (t : Tx) (l : List Tx) :
    feeSum (t :: l) = t.feeBid + feeSum l := by
  simp [feeSum]

theorem filter_contig (L : List Tx) (base M : Int)
    (hc : ∀ j (hj : j < L.length), (L.get ⟨j, hj⟩).seqNum = base + j)
    (hM : base ≤ M) :
    L.filter (fun v => decide (v.seqNum ≤ M)) = L.take ((M - base).toNat + 1)
    ∧ L.filter (fun v => decide (M < v.seqNum)) = L.drop ((M - base).toNat + 1) := by
  induction L generalizing base with
  | nil => simp
  | cons v L2 ih =>
    have hv : v.seqNum = base := by
      have := hc 0 (by simp)
      simpa using this
    have hc2 : ∀ j (hj : j < L2.length), (L2.get ⟨j, hj⟩).seqNum = (base + 1) + j := by
      intro j hj
      have := hc (j + 1) (by simpa using Nat.succ_lt_succ hj)
      simp only [List.get_cons_succ] at this
      rw [this]
      push_cast
      ring
    have htake : ∃ n, (M - base).toNat + 1 = n + 1 := ⟨(M - base).toNat, rfl⟩
    by_cases h2 : base + 1 ≤ M
    · obtain ⟨h3, h4⟩ := ih (base + 1) hc2 h2
      have harith : (M - base).toNat = (M - (base + 1)).toNat + 1 := by omega
      constructor
      · rw [List.filter_cons_of_pos (by simp [hv, hM])]
        rw [harith, List.take_succ_cons, h3]
      · rw [List.filter_cons_of_neg (by simp [hv, hM])]
        rw [harith, List.drop_succ_cons, h4]
    · have hMb : M = base := by omega
      have hall : ∀ u ∈ L2, M < u.seqNum := by
        intro u hu
        obtain ⟨⟨jv, hjv⟩, hget⟩ := List.mem_iff_get.mp hu
        rw [← hget, hc2 jv hjv, hMb]
        omega
      have hn : (M - base).toNat = 0 := by omega
      constructor
      · rw [List.filter_cons_of_pos (by simp [hv, hM])]
        rw [hn, List.take_succ_cons, List.take_zero]
        have : L2.filter (fun v => decide (v.seqNum ≤ M)) = [] := by
          rw [List.filter_eq_nil_iff]
          intro u hu
          simp only [decide_eq_true_eq]
          exact not_le.mpr (hall u hu)
        rw [this]
      · rw [List.filter_cons_of_neg (by simp [hv, hM])]
        rw [hn, List.drop_succ_cons, List.drop_zero]
        rw [List.filter_eq_self.mpr]
        intro u hu
        simp only [decide_eq_true_eq]
        exact hall u hu

/-! ### Ban-slot hash insertion -/

theorem mem_keys_emplaceAcct (m : AccountStates) (k : Nat) (v : AccountState)
    (x : Nat) (hx : x ∈ (emplaceAcct m k v).map Prod.fst) :
    x = k ∨ x ∈ m.map Prod.fst := by
  induction m with
  | nil =>
    simp [emplaceAcct] at hx
    exact Or.inl hx
  | cons p rest ih =>
    obtain ⟨a, s⟩ := p
    by_cases h1 : k < a
    · simp only [emplaceAcct, if_pos h1, List.map_cons, List.mem_cons] at hx
      rcases hx with h | h | h
      · exact Or.inl h
      · exact Or.inr (by simp [h])
      · exact Or.inr (by simp [h])
    · by_cases h2 : k = a
      · simp only [emplaceAcct, if_neg h1, if_pos h2] at hx
        exact Or.inr hx
      · simp only [emplaceAcct, if_neg h1, if_neg h2, List.map_cons,
          List.mem_cons] at hx
        rcases hx with h | h
        · exact Or.inr (by simp [h])
        · rcases ih h with h3 | h3
          · exact Or.inl h3
          · exact Or.inr (by simp [h3])

theorem sorted_emplaceAcct (m : AccountStates) (k : Nat) (v : AccountState)
    (hs : List.Chain' (· < ·) (m.map Prod.fst)) :
    List.Chain' (· < ·) ((emplaceAcct m k v).map Prod.fst) := by
  rw [List.chain'_iff_pairwise] at hs ⊢
  induction m with
  | nil => simp [emplaceAcct]
  | cons p rest ih =>
    obtain ⟨a, s⟩ := p
    simp only [List.map_cons, List.pairwise_cons] at hs
    by_cases h1 : k < a
    · simp only [emplaceAcct, if_pos h1, List.map_cons, List.pairwise_cons]
      refine ⟨?_, hs.1, hs.2⟩
      intro x hx
      rcases List.mem_cons.mp hx with h | h
      · exact h ▸ h1
      · exact lt_trans h1 (hs.1 x h)
    · by_cases h2 : k = a
      · simp only [emplaceAcct, if_neg h1, if_pos h2, List.map_cons,
          List.pairwise_cons]
        exact hs
      · simp only [emplaceAcct, if_neg h1, if_neg h2, List.map_cons,
          List.pairwise_cons]
        refine ⟨?_, ih hs.2⟩
        intro x hx
        rcases mem_keys_emplaceAcct rest k v x hx with h | h
        · subst h
          omega
        · exact hs.1 x h

theorem keys_eraseAcct_sublist (m : AccountStates) (k : Nat) :
    List.Sublist ((eraseAcct m k).map Prod.fst) (m.map Prod.fst) := by
  induction m with
  | nil => simp [eraseAcct]
  | cons p rest ih =>
    obtain ⟨a, s⟩ := p
    by_cases ha : a = k
    · simp only [eraseAcct, if_pos ha, List.map_cons]
      exact List.sublist_cons_of_sublist a (List.Sublist.refl _)
    · simp only [eraseAcct, if_neg ha, List.map_cons]
      exact List.Sublist.cons₂ a ih

theorem sorted_eraseAcct (m : AccountStates) (k : Nat)
    (hs : List.Chain' (· < ·) (m.map Prod.fst)) :
    List.Chain' (· < ·) ((eraseAcct m k).map Prod.fst) := by
  rw [List.chain'_iff_pairwise] at hs ⊢
  exact hs.sublist (keys_eraseAcct_sublist m k)

theorem isDuplicateTx_self (tx : Tx) : isDuplicateTx tx tx = true := by
  simp [isDuplicateTx]

/-- Resubmitting a transaction that sits in its source account's queue
(at the slot its sequence number designates, the queue being contiguous)
is detected as a duplicate and leaves the state unchanged. -/
theorem tryAdd_duplicate_of_mem (q2 : TxQueue) (env : LedgerEnv) (tx : Tx)
    (s2 : AccountState) (L : List Tx) (base : Int) (j : Nat) (hj : j < L.length)
    (hban : isBanned q2 tx.fullHash = false)
    (hacct : findAcct q2.mAccountStates tx.sourceID = some s2)
    (htxs : s2.mTransactions = L)
    (hcontig : ∀ i (hi : i < L.length), (L.get ⟨i, hi⟩).seqNum = base + i)
    (hget : L.get ⟨j, hj⟩ = tx) :
    tryAdd q2 env tx = (AddResult.Duplicate, none, q2) := by
  obtain ⟨t2, ts2, hL⟩ := List.exists_cons_of_ne_nil
    (fun hc : L = [] => by rw [hc] at hj; exact absurd hj (by simp))
  subst hL
  have hbase : t2.seqNum = base := by
    have := hcontig 0 (by simp)
    simpa using this
  have hseqtx : tx.seqNum = base + j := by
    rw [← hget]
    exact hcontig j hj
  have hfind : findBySeq tx.seqNum (t2 :: ts2) = some j := by
    have hlast : ((t2 :: ts2).getLastD t2).seqNum = base + ts2.length := by
      rw [getLastD_cons_get]
      have := hcontig ts2.length (by simp)
      simpa using this
    simp only [findBySeq]
    rw [if_neg]
    · congr 1
      rw [hseqtx, hbase]
      omega
    · rw [hlast, hbase]
      push_neg
      simp only [List.length_cons] at hj
      constructor <;> omega
  have hphase : canAddPhase1 q2 tx = Sum.inl (AddResult.Duplicate, none) := by
    unfold canAddPhase1
    rw [hacct]
    simp only [htxs]
    by_cases henv : tx.envType = EnvType.FeeBump
    · rw [if_neg (by simp [henv])]
      rw [hfind]
      dsimp only
      rw [dif_pos hj, hget, isDuplicateTx_self]
      simp
    · rw [if_pos (by simp [henv])]
      have hdup : (match findBySeq tx.seqNum (t2 :: ts2) with
          | none => false
          | some i =>
            if h : i < (t2 :: ts2).length then
              isDuplicateTx ((t2 :: ts2).get ⟨i, h⟩) tx
            else false) = true := by
        rw [hfind]
        dsimp only
        rw [dif_pos hj, hget, isDuplicateTx_self]
      rw [hdup]
      simp
  have hcan : canAdd q2 env tx = ⟨AddResult.Duplicate, none, none, q2⟩ := by
    unfold canAdd
    rw [hban]
    simp only [Bool.false_eq_true, if_false, hphase]
  unfold tryAdd
  rw [hcan]
  simp

theorem contig_append_singleton (L : List Tx) (base : Int) (tx : Tx)
    (hc : ∀ i (hi : i < L.length), (L.get ⟨i, hi⟩).seqNum = base + i)
    (hlast : tx.seqNum = base + L.length) :
    ∀ i (hi : i < (L ++ [tx]).length),
      ((L ++ [tx]).get ⟨i, hi⟩).seqNum = base + i := by
  intro i hi
  by_cases h : i < L.length
  · rw [List.get_append i h]
    exact hc i h
  · have hieq : i = L.length := by
      simp only [List.length_append, List.length_singleton] at hi
      omega
    subst hieq
    rw [List.get_of_append rfl rfl]
    exact hlast

theorem contig_set (L : List Tx) (base : Int) (i : Nat) (tx : Tx)
    (hc : ∀ jj (hj : jj < L.length), (L.get ⟨jj, hj⟩).seqNum = base + jj)
    (hseq : tx.seqNum = base + i) :
    ∀ jj (hj : jj < (L.set i tx).length),
      ((L.set i tx).get ⟨jj, hj⟩).seqNum = base + jj := by
  intro jj hj
  by_cases hij : i = jj
  · subst hij
    rw [List.get_set_eq hj]
    exact hseq
  · rw [List.get_set_ne hij hj]
    exact hc jj (by simpa using hj)

/-- `releaseFeeMaybeEraseAccountState` leaves an account with a non-empty
queue in place with its transaction list unchanged, and touches neither
the ban ring nor the key ordering. -/
theorem releaseFee_facts (q : TxQueue) (u : Tx) (src : Nat) (s : AccountState)
    (hsorted : List.Chain' (· < ·) (q.mAccountStates.map Prod.fst))
    (hacct : findAcct q.mAccountStates src = some s)
    (hne : s.mTransactions ≠ []) :
    ∃ s3, findAcct (releaseFeeMaybeEraseAccountState q u).mAccountStates src = some s3
      ∧ s3.mTransactions = s.mTransactions
      ∧ (releaseFeeMaybeEraseAccountState q u).mBannedTransactions =
          q.mBannedTransactions
      ∧ List.Chain' (· < ·)
          ((releaseFeeMaybeEraseAccountState q u).mAccountStates.map Prod.fst) := by
  unfold releaseFeeMaybeEraseAccountState
  cases hfso : findAcct q.mAccountStates u.feeSourceID with
  | none => exact ⟨s, hacct, rfl, rfl, hsorted⟩
  | some sf =>
    dsimp only
    by_cases hcond : sf.mTransactions = [] ∧ sf.mTotalFees - u.feeBid = 0
    · rw [if_pos hcond]
      have hne2 : src ≠ u.feeSourceID := by
        intro hc
        rw [hc, hfso] at hacct
        cases hacct
        exact hne hcond.1
      refine ⟨s, ?_, rfl, rfl, sorted_eraseAcct _ _ hsorted⟩
      rw [findAcct_eraseAcct_ne _ _ _ hne2]
      exact hacct
    · rw [if_neg hcond]
      by_cases hsrc : src = u.feeSourceID
      · subst hsrc
        rw [hfso] at hacct
        cases hacct
        refine ⟨{ s with mTotalFees := s.mTotalFees - u.feeBid }, ?_, rfl, rfl, ?_⟩
        · rw [findAcct_updateAcct_self, hfso]
          rfl
        · rw [keys_updateAcct]
          exact hsorted
      · refine ⟨s, ?_, rfl, rfl, ?_⟩
        · rw [findAcct_updateAcct_ne _ _ _ _ hsrc]
          exact hacct
        · rw [keys_updateAcct]
          exact hsorted

/-- `commitTail` (the counter/fee updates at the end of `tryAdd`) leaves
the source account's transaction list and the ban ring unchanged. -/
theorem commitTail_facts (q1 : TxQueue) (tx : Tx) (s1 : AccountState)
    (hacct : findAcct q1.mAccountStates tx.sourceID = some s1)
    (hsorted : List.Chain' (· < ·) (q1.mAccountStates.map Prod.fst)) :
    ∃ s3, findAcct (commitTail q1 tx).mAccountStates tx.sourceID = some s3
      ∧ s3.mTransactions = s1.mTransactions
      ∧ (commitTail q1 tx).mBannedTransactions = q1.mBannedTransactions := by
  unfold commitTail
  dsimp only
  have hacct2 : findAcct
      (updateAcct q1.mAccountStates tx.sourceID
        (fun s => { s with mQueueSizeOps := s.mQueueSizeOps + (tx.numOps : Int) }))
      tx.sourceID =
      some { s1 with mQueueSizeOps := s1.mQueueSizeOps + (tx.numOps : Int) } := by
    rw [findAcct_updateAcct_self, hacct]
    rfl
  by_cases hfs : tx.feeSourceID = tx.sourceID
  · rw [hfs]
    rw [emplaceAcct_present _ _ _ (by rw [keys_updateAcct]; exact hsorted) _ hacct2]
    refine
      ⟨{ s1 with
          mTotalFees := s1.mTotalFees + tx.feeBid,
          mQueueSizeOps := s1.mQueueSizeOps + (tx.numOps : Int) }, ?_, rfl, rfl⟩
    rw [updateAcct_updateAcct, findAcct_updateAcct_self, hacct]
    rfl
  · have hne : tx.sourceID ≠ tx.feeSourceID := fun hc => hfs hc.symm
    refine
      ⟨{ s1 with
          mQueueSizeOps := s1.mQueueSizeOps + (tx.numOps : Int) }, ?_, rfl, rfl⟩
    rw [findAcct_updateAcct_ne _ _ _ _ hne, findAcct_emplaceAcct_ne _ _ _ _ hne,
      hacct2]

theorem findBySeq_inv (sq : Int) (t : Tx) (ts : List Tx) (i : Nat)
    (h : findBySeq sq (t :: ts) = some i) :
    t.seqNum ≤ sq ∧ sq ≤ ((t :: ts).getLastD t).seqNum + 1 ∧
      (sq - t.seqNum).toNat = i := by
  simp only [findBySeq] at h
  by_cases hc : sq < t.seqNum ∨ sq > ((t :: ts).getLastD t).seqNum + 1
  · rw [if_pos hc] at h
    cases h
  · rw [if_neg hc] at h
    push_neg at hc
    exact ⟨hc.1, hc.2, by injection h⟩

/-- The committed state of a `tryAdd` that appends (`oldTxIter` at the
end): the source account's queue gains `tx` at the tail and the ban ring
is untouched. -/
theorem tryAdd_append_facts (q : TxQueue) (env : LedgerEnv) (tx : Tx)
    (hsorted : List.Chain' (· < ·) (q.mAccountStates.map Prod.fst))
    (hcan : canAdd q env tx = ⟨AddResult.Pending, none, none, q⟩) :
    ∃ s3, findAcct (tryAdd q env tx).2.2.mAccountStates tx.sourceID = some s3
      ∧ s3.mTransactions =
          ((findAcct q.mAccountStates tx.sourceID).elim []
            AccountState.mTransactions) ++ [tx]
      ∧ (tryAdd q env tx).2.2.mBannedTransactions = q.mBannedTransactions
      ∧ (tryAdd q env tx).1 = AddResult.Pending := by
  have htry : tryAdd q env tx = (AddResult.Pending, none,
      commitTail
        { (match findAcct q.mAccountStates tx.sourceID with
            | none =>
              { q with mAccountStates :=
                  emplaceAcct q.mAccountStates tx.sourceID AccountState.emptyState }
            | some _ => q) with
          mAccountStates :=
            updateAcct
              (match findAcct q.mAccountStates tx.sourceID with
                | none => emplaceAcct q.mAccountStates tx.sourceID AccountState.emptyState
                | some _ => q.mAccountStates) tx.sourceID
              (fun s2 => { s2 with mTransactions := s2.mTransactions ++ [tx] }),
          mSizeByAge :=
            adjustAt q.mSizeByAge
              (((findAcct
                  (match findAcct q.mAccountStates tx.sourceID with
                    | none =>
                      emplaceAcct q.mAccountStates tx.sourceID AccountState.emptyState
                    | some _ => q.mAccountStates) tx.sourceID).getD
                AccountState.emptyState).mAge) 1 } tx) := by
    unfold tryAdd
    rw [hcan]
    cases hfa : findAcct q.mAccountStates tx.sourceID with
    | none => simp [hfa]
    | some s => simp [hfa]
  cases hfa : findAcct q.mAccountStates tx.sourceID with
  | none =>
    rw [hfa] at htry
    dsimp only at htry
    have hacct1 : findAcct
        (emplaceAcct q.mAccountStates tx.sourceID AccountState.emptyState)
        tx.sourceID = some AccountState.emptyState :=
      findAcct_emplaceAcct_absent _ _ _ hfa
    have hacct2 : findAcct
        (updateAcct
          (emplaceAcct q.mAccountStates tx.sourceID AccountState.emptyState)
          tx.sourceID
          (fun s2 => { s2 with mTransactions := s2.mTransactions ++ [tx] }))
        tx.sourceID = some ⟨[] ++ [tx], 0, 0, 0⟩ := by
      rw [findAcct_updateAcct_self, hacct1]
      rfl
    obtain ⟨s3, h3a, h3b, h3c⟩ := commitTail_facts
      { q with
        mAccountStates :=
          updateAcct
            (emplaceAcct q.mAccountStates tx.sourceID AccountState.emptyState)
            tx.sourceID
            (fun s2 => { s2 with mTransactions := s2.mTransactions ++ [tx] }),
        mSizeByAge :=
          adjustAt q.mSizeByAge
            ((findAcct
                (emplaceAcct q.mAccountStates tx.sourceID AccountState.emptyState)
                tx.sourceID).getD AccountState.emptyState).mAge 1 }
      tx ⟨[] ++ [tx], 0, 0, 0⟩ hacct2
      (by
        rw [keys_updateAcct]
        exact sorted_emplaceAcct _ _ _ hsorted)
    rw [htry]
    exact ⟨s3, h3a, by simp [h3b], h3c, rfl⟩
  | some s =>
    rw [hfa] at htry
    dsimp only at htry
    have hacct2 : findAcct
        (updateAcct q.mAccountStates tx.sourceID
          (fun s2 => { s2 with mTransactions := s2.mTransactions ++ [tx] }))
        tx.sourceID = some { s with mTransactions := s.mTransactions ++ [tx] } := by
      rw [findAcct_updateAcct_self, hfa]
      rfl
    obtain ⟨s3, h3a, h3b, h3c⟩ := commitTail_facts
      { q with
        mAccountStates :=
          updateAcct q.mAccountStates tx.sourceID
            (fun s2 => { s2 with mTransactions := s2.mTransactions ++ [tx] }),
        mSizeByAge :=
          adjustAt q.mSizeByAge
            ((findAcct q.mAccountStates tx.sourceID).getD
              AccountState.emptyState).mAge 1 }
      tx { s with mTransactions := s.mTransactions ++ [tx] } hacct2
      (by
        rw [keys_updateAcct]
        exact hsorted)
    rw [htry]
    exact ⟨s3, h3a, by simp [h3b], h3c, rfl⟩

/-- The committed state of a `tryAdd` that replaces slot `i`: the source
account's queue has `tx` written at index `i` and the ban ring is
untouched. -/
theorem tryAdd_replace_facts (q : TxQueue) (env : LedgerEnv) (tx : Tx)
    (s : AccountState) (t : Tx) (ts : List Tx) (i : Nat)
    (hsorted : List.Chain' (· < ·) (q.mAccountStates.map Prod.fst))
    (hfa : findAcct q.mAccountStates tx.sourceID = some s)
    (htxs : s.mTransactions = t :: ts)
    (hcan : canAdd q env tx = ⟨AddResult.Pending, none, some i, q⟩) :
    ∃ s3, findAcct (tryAdd q env tx).2.2.mAccountStates tx.sourceID = some s3
      ∧ s3.mTransactions = (t :: ts).set i tx
      ∧ (tryAdd q env tx).2.2.mBannedTransactions = q.mBannedTransactions
      ∧ (tryAdd q env tx).1 = AddResult.Pending := by
  obtain ⟨sR, hRa, hRb, hRc, hRd⟩ := releaseFee_facts q
    (s.mTransactions.getD i txDefault) tx.sourceID s hsorted hfa
    (by rw [htxs]; exact List.cons_ne_nil _ _)
  have htry : tryAdd q env tx = (AddResult.Pending, none,
      commitTail
        { (releaseFeeMaybeEraseAccountState q (s.mTransactions.getD i txDefault)) with
          mAccountStates :=
            updateAcct
              (releaseFeeMaybeEraseAccountState q
                (s.mTransactions.getD i txDefault)).mAccountStates tx.sourceID
              (fun s2 => { s2 with
                mQueueSizeOps := s2.mQueueSizeOps -
                  ((s.mTransactions.getD i txDefault).numOps : Int),
                mTransactions := s2.mTransactions.set i tx }),
          mQueueSizeOps :=
            (releaseFeeMaybeEraseAccountState q
              (s.mTransactions.getD i txDefault)).mQueueSizeOps -
              ((s.mTransactions.getD i txDefault).numOps : Int) } tx) := by
    unfold tryAdd
    rw [hcan]
    simp [hfa]
  have hacct2 : findAcct
      (updateAcct
        (releaseFeeMaybeEraseAccountState q
          (s.mTransactions.getD i txDefault)).mAccountStates tx.sourceID
        (fun s2 => { s2 with
          mQueueSizeOps := s2.mQueueSizeOps -
            ((s.mTransactions.getD i txDefault).numOps : Int),
          mTransactions := s2.mTransactions.set i tx }))
      tx.sourceID = some { sR with
        mQueueSizeOps := sR.mQueueSizeOps -
          ((s.mTransactions.getD i txDefault).numOps : Int),
        mTransactions := sR.mTransactions.set i tx } := by
    rw [findAcct_updateAcct_self, hRa]
    rfl
  obtain ⟨s3, h3a, h3b, h3c⟩ := commitTail_facts
    { (releaseFeeMaybeEraseAccountState q (s.mTransactions.getD i txDefault)) with
      mAccountStates :=
        updateAcct
          (releaseFeeMaybeEraseAccountState q
            (s.mTransactions.getD i txDefault)).mAccountStates tx.sourceID
          (fun s2 => { s2 with
            mQueueSizeOps := s2.mQueueSizeOps -
              ((s.mTransactions.getD i txDefault).numOps : Int),
            mTransactions := s2.mTransactions.set i tx }),
      mQueueSizeOps :=
        (releaseFeeMaybeEraseAccountState q
          (s.mTransactions.getD i txDefault)).mQueueSizeOps -
          ((s.mTransactions.getD i txDefault).numOps : Int) }
    tx
    { sR with
      mQueueSizeOps := sR.mQueueSizeOps -
        ((s.mTransactions.getD i txDefault).numOps : Int),
      mTransactions := sR.mTransactions.set i tx }
    hacct2
    (by
      rw [keys_updateAcct]
      exact hRd)
  rw [htry]
  refine ⟨s3, h3a, ?_, ?_, rfl⟩
  · rw [h3b]
    simp only [hRb, htxs]
  · rw [h3c]
    exact hRc

theorem tryAdd_res (q : TxQueue) (env : LedgerEnv) (tx : Tx) :
    (tryAdd q env tx).1 = (canAdd q env tx).res := by
  unfold tryAdd
  by_cases h : (canAdd q env tx).res = AddResult.Pending
  · rw [if_neg (by simp [h])]
    cases findAcct (canAdd q env tx).state.mAccountStates tx.sourceID <;>
      cases (canAdd q env tx).oldTxIdx <;> simp [h]
  · rw [if_pos (by simp [h])]

theorem canAdd_res_inl (q : TxQueue) (env : LedgerEnv) (tx : Tx)
    (rc : AddResult × Option RCode)
    (hb : isBanned q tx.fullHash = false)
    (hphase : canAddPhase1 q tx = Sum.inl rc) :
    canAdd q env tx = ⟨rc.1, rc.2, none, q⟩ := by
  unfold canAdd
  rw [hb]
  simp only [Bool.false_eq_true, if_false, hphase]

theorem canAdd_pending_inr (q : TxQueue) (env : LedgerEnv) (tx : Tx)
    (nf no sq : Int) (oidx : Option Nat)
    (hb : isBanned q tx.fullHash = false)
    (hphase : canAddPhase1 q tx = Sum.inr (nf, no, sq, oidx))
    (hres : (canAdd q env tx).res = AddResult.Pending) :
    canAdd q env tx = ⟨AddResult.Pending, none, oidx, q⟩ := by
  unfold canAdd at hres ⊢
  simp only [hb, Bool.false_eq_true, if_false, hphase] at hres ⊢
  by_cases hcap : no + q.mQueueSizeOps > (maxQueueSizeOps q env : Int)
  · rw [if_pos hcap] at hres
    simp at hres
  · rw [if_neg hcap] at hres ⊢
    by_cases hv : env.checkValid tx sq = true
    · rw [if_neg (by simp [hv])] at hres ⊢
      by_cases hbal : env.availableBalance tx.feeSourceID - nf <
          (match findAcct q.mAccountStates tx.feeSourceID with
            | none => 0
            | some fs => fs.mTotalFees)
      · rw [if_pos hbal] at hres
        simp at hres
      · rw [if_neg hbal]
    · rw [if_pos (by simp [hv])] at hres
      simp at hres

/-- C8: if `tryAdd(tx)` returns `Pending`, an immediately following
`tryAdd(tx)` returns `Duplicate` and leaves the state unchanged (the
duplicate being detected through `isDuplicateTx` at the queued slot of
`tx.seqNum`). Stated over well-formed states: map keys sorted, the source
account's queue contiguous, and Plain admissions to a non-empty queue only
validated at the tail sequence (`seqNum = last + 1`), as the external
validator guarantees. -/
theorem tryAdd_pending_then_duplicate (q : TxQueue) (env : LedgerEnv) (tx : Tx)
    (hsorted : List.Chain' (· < ·) (q.mAccountStates.map Prod.fst))
    (hcontig : ∀ s t ts, findAcct q.mAccountStates tx.sourceID = some s →
      s.mTransactions = t :: ts →
      ∀ i (hi : i < (t :: ts).length),
        ((t :: ts).get ⟨i, hi⟩).seqNum = t.seqNum + i)
    (hplain : tx.envType ≠ EnvType.FeeBump →
      ∀ s t ts, findAcct q.mAccountStates tx.sourceID = some s →
      s.mTransactions = t :: ts →
      tx.seqNum = ((t :: ts).getLastD t).seqNum + 1)
    (hPending : (tryAdd q env tx).1 = AddResult.Pending) :
    tryAdd (tryAdd q env tx).2.2 env tx =
      (AddResult.Duplicate, none, (tryAdd q env tx).2.2) := by
  have hres : (canAdd q env tx).res = AddResult.Pending :=
    (tryAdd_res q env tx).symm.trans hPending
  have hb : isBanned q tx.fullHash = false := by
    cases hbv : isBanned q tx.fullHash
    · rfl
    · exfalso
      have : canAdd q env tx = ⟨AddResult.TryAgainLater, none, none, q⟩ := by
        unfold canAdd
        rw [hbv]
        simp
      rw [this] at hres
      simp at hres
  cases hfa : findAcct q.mAccountStates tx.sourceID with
  | none =>
    have hphase : canAddPhase1 q tx =
        Sum.inr (tx.feeBid, (tx.numOps : Int), 0, none) := by
      unfold canAddPhase1
      rw [hfa]
    have hcan := canAdd_pending_inr q env tx _ _ _ _ hb hphase hres
    obtain ⟨s3, ha, hL, hring, _⟩ := tryAdd_append_facts q env tx hsorted hcan
    rw [hfa] at hL
    simp only [Option.elim, List.nil_append] at hL
    have hball : isBanned (tryAdd q env tx).2.2 tx.fullHash = false := by
      unfold isBanned at hb ⊢
      rw [hring]
      exact hb
    exact tryAdd_duplicate_of_mem _ env tx s3 [tx] tx.seqNum 0 (by simp)
      hball ha hL
      (by
        intro i hi
        have hi0 : i = 0 := by simpa using hi
        subst hi0
        simp)
      rfl
  | some s =>
    cases htx : s.mTransactions with
    | nil =>
      have hphase : canAddPhase1 q tx =
          Sum.inr (tx.feeBid, (tx.numOps : Int), 0, none) := by
        unfold canAddPhase1
        rw [hfa]
        simp only [htx]
      have hcan := canAdd_pending_inr q env tx _ _ _ _ hb hphase hres
      obtain ⟨s3, ha, hL, hring, _⟩ := tryAdd_append_facts q env tx hsorted hcan
      rw [hfa] at hL
      simp only [Option.elim, htx, List.nil_append] at hL
      have hball : isBanned (tryAdd q env tx).2.2 tx.fullHash = false := by
        unfold isBanned at hb ⊢
        rw [hring]
        exact hb
      exact tryAdd_duplicate_of_mem _ env tx s3 [tx] tx.seqNum 0 (by simp)
        hball ha hL
        (by
          intro i hi
          have hi0 : i = 0 := by simpa using hi
          subst hi0
          simp)
        rfl
    | cons t ts =>
      have hC := hcontig s t ts hfa htx
      have hlast : ((t :: ts).getLastD t).seqNum = t.seqNum + ts.length := by
        rw [getLastD_cons_get]
        have := hC ts.length (by simp)
        simpa using this
      by_cases henv : tx.envType = EnvType.FeeBump
      · cases hfind : findBySeq tx.seqNum (t :: ts) with
        | none =>
          exfalso
          have hphase : canAddPhase1 q tx =
              Sum.inl (AddResult.Error, some RCode.BadSeq) := by
            unfold canAddPhase1
            rw [hfa]
            simp only [htx]
            rw [if_neg (by simp [henv])]
            rw [hfind]
          rw [canAdd_res_inl q env tx _ hb hphase] at hres
          simp at hres
        | some i =>
          obtain ⟨hge, hle2, hto⟩ := findBySeq_inv _ _ _ _ hfind
          by_cases hi : i < (t :: ts).length
          · by_cases hdup2 : isDuplicateTx ((t :: ts).get ⟨i, hi⟩) tx = true
            · exfalso
              have hphase : canAddPhase1 q tx =
                  Sum.inl (AddResult.Duplicate, none) := by
                unfold canAddPhase1
                rw [hfa]
                simp only [htx]
                rw [if_neg (by simp [henv])]
                rw [hfind]
                dsimp only
                rw [dif_pos hi, if_pos hdup2]
              rw [canAdd_res_inl q env tx _ hb hphase] at hres
              simp at hres
            · by_cases hrep : canReplaceByFee tx ((t :: ts).get ⟨i, hi⟩) = true
              · have hphase : canAddPhase1 q tx =
                    Sum.inr
                      (if ((t :: ts).get ⟨i, hi⟩).feeSourceID = tx.feeSourceID
                        then tx.feeBid - ((t :: ts).get ⟨i, hi⟩).feeBid
                        else tx.feeBid,
                        (tx.numOps : Int) - (((t :: ts).get ⟨i, hi⟩).numOps : Int),
                        tx.seqNum - 1, some i) := by
                  unfold canAddPhase1
                  rw [hfa]
                  simp only [htx]
                  rw [if_neg (by simp [henv])]
                  rw [hfind]
                  dsimp only
                  rw [dif_pos hi, if_neg hdup2, if_neg (fun hc => hc hrep)]
                have hcan := canAdd_pending_inr q env tx _ _ _ _ hb hphase hres
                obtain ⟨s3, ha, hL, hring, _⟩ :=
                  tryAdd_replace_facts q env tx s t ts i hsorted hfa htx hcan
                have hball : isBanned (tryAdd q env tx).2.2 tx.fullHash = false := by
                  unfold isBanned at hb ⊢
                  rw [hring]
                  exact hb
                have hseqi : tx.seqNum = t.seqNum + i := by omega
                exact tryAdd_duplicate_of_mem _ env tx s3 ((t :: ts).set i tx)
                  t.seqNum i (by simpa using hi) hball ha hL
                  (contig_set (t :: ts) t.seqNum i tx hC hseqi)
                  (List.get_set_eq _)
              · exfalso
                have hphase : canAddPhase1 q tx =
                    Sum.inl (AddResult.Error, some RCode.InsufficientFee) := by
                  unfold canAddPhase1
                  rw [hfa]
                  simp only [htx]
                  rw [if_neg (by simp [henv])]
                  rw [hfind]
                  dsimp only
                  rw [dif_pos hi, if_neg hdup2, if_pos hrep]
                rw [canAdd_res_inl q env tx _ hb hphase] at hres
                simp at hres
          · have hphase : canAddPhase1 q tx =
                Sum.inr (tx.feeBid, (tx.numOps : Int), tx.seqNum - 1, none) := by
              unfold canAddPhase1
              rw [hfa]
              simp only [htx]
              rw [if_neg (by simp [henv])]
              rw [hfind]
              dsimp only
              rw [dif_neg hi]
            have hcan := canAdd_pending_inr q env tx _ _ _ _ hb hphase hres
            obtain ⟨s3, ha, hL, hring, _⟩ :=
              tryAdd_append_facts q env tx hsorted hcan
            rw [hfa] at hL
            simp only [Option.elim, htx] at hL
            have hball : isBanned (tryAdd q env tx).2.2 tx.fullHash = false := by
              unfold isBanned at hb ⊢
              rw [hring]
              exact hb
            have hseqlen : tx.seqNum = t.seqNum + ((t :: ts).length : Int) := by
              rw [hlast] at hle2
              simp only [List.length_cons] at hi ⊢
              push_cast
              omega
            exact tryAdd_duplicate_of_mem _ env tx s3 ((t :: ts) ++ [tx])
              t.seqNum (t :: ts).length (by simp) hball ha hL
              (contig_append_singleton (t :: ts) t.seqNum tx hC hseqlen)
              (List.get_of_append rfl rfl)
      · have hP := hplain henv s t ts hfa htx
        have hdupf : (match findBySeq tx.seqNum (t :: ts) with
            | none => false
            | some i =>
              if h : i < (t :: ts).length then
                isDuplicateTx ((t :: ts).get ⟨i, h⟩) tx
              else false) = false := by
          cases hfind : findBySeq tx.seqNum (t :: ts) with
          | none => rfl
          | some i =>
            obtain ⟨hge, hle2, hto⟩ := findBySeq_inv _ _ _ _ hfind
            rw [hP, hlast] at hto
            have hnl : ¬ i < (t :: ts).length := by
              simp only [List.length_cons]
              omega
            dsimp only
            rw [dif_neg hnl]
        have hphase : canAddPhase1 q tx =
            Sum.inr (tx.feeBid, (tx.numOps : Int),
              ((t :: ts).getLastD t).seqNum, none) := by
          unfold canAddPhase1
          rw [hfa]
          simp only [htx]
          rw [if_pos (by simp [henv])]
          rw [hdupf]
          simp
        have hcan := canAdd_pending_inr q env tx _ _ _ _ hb hphase hres
        obtain ⟨s3, ha, hL, hring, _⟩ := tryAdd_append_facts q env tx hsorted hcan
        rw [hfa] at hL
        simp only [Option.elim, htx] at hL
        have hball : isBanned (tryAdd q env tx).2.2 tx.fullHash = false := by
          unfold isBanned at hb ⊢
          rw [hring]
          exact hb
        have hseqlen : tx.seqNum = t.seqNum + ((t :: ts).length : Int) := by
          rw [hP, hlast]
          simp only [List.length_cons]
          push_cast
          ring
        exact tryAdd_duplicate_of_mem _ env tx s3 ((t :: ts) ++ [tx])
          t.seqNum (t :: ts).length (by simp) hball ha hL
          (contig_append_singleton (t :: ts) t.seqNum tx hC hseqlen)
          (List.get_of_append rfl rfl)

/-! ### Concrete fixtures for witnesses -/

def wt1 : Tx := ⟨101, 0, EnvType.Plain, 1, 1, 5, 1, 100⟩

def wq1 : TxQueue := ⟨[(1, ⟨[wt1], 100, 1, 0⟩)], [[], []], 1, 4, 2, [1, 0, 0, 0]⟩

def wenv : LedgerEnv := ⟨fun _ _ => true, fun _ => 1000, 50⟩

def wenvLow : LedgerEnv := ⟨fun _ _ => true, fun _ => 950, 50⟩

def wenvSmall : LedgerEnv := ⟨fun _ _ => true, fun _ => 1000, 0⟩

def wq0 : TxQueue := ⟨[], [[], []], 0, 4, 2, [0, 0, 0, 0]⟩

def wtx9 : Tx := ⟨901, 0, EnvType.Plain, 3, 3, 11, 1, 40⟩

def wtA : Tx := ⟨401, 0, EnvType.Plain, 1, 1, 7, 1, 10⟩

def wtB : Tx := ⟨402, 0, EnvType.Plain, 1, 1, 8, 1, 10⟩

def wtC : Tx := ⟨403, 0, EnvType.Plain, 1, 1, 9, 1, 10⟩

def wq4 : TxQueue := ⟨[(1, ⟨[wtA, wtB, wtC], 30, 3, 0⟩)], [[], []], 3, 4, 2, [3, 0, 0, 0]⟩

theorem tryAdd_pending_then_duplicate_witness :
    tryAdd (tryAdd wq1 wenv ⟨202, 101, EnvType.FeeBump, 1, 1, 5, 1, 1000⟩).2.2 wenv
        ⟨202, 101, EnvType.FeeBump, 1, 1, 5, 1, 1000⟩ =
      (AddResult.Duplicate, none,
        (tryAdd wq1 wenv ⟨202, 101, EnvType.FeeBump, 1, 1, 5, 1, 1000⟩).2.2) :=
  tryAdd_pending_then_duplicate wq1 wenv ⟨202, 101, EnvType.FeeBump, 1, 1, 5, 1, 1000⟩
    (by simp [wq1])
    (by
      intro s t ts hs hts i hi
      have hs2 : (⟨[wt1], 100, 1, 0⟩ : AccountState) = s := by
        injection hs
      subst hs2
      have ht : wt1 = t ∧ ([] : List Tx) = ts := by
        constructor <;> injection hts <;> assumption
      obtain ⟨rfl, rfl⟩ := ht
      have hi0 : i = 0 := by simpa using hi
      subst hi0
      norm_num [wt1])
    (fun h => absurd rfl h)
    (by decide)

theorem ban_shift_expiry_witness :
    tryAdd (shift^[1] (ban wq0 [wtx9])) wenv wtx9 =
      (AddResult.TryAgainLater, none, shift^[1] (ban wq0 [wtx9]))
    ∧ isBanned (shift^[2] (ban wq0 [wtx9])) wtx9.fullHash = false :=
  ⟨(ban_shift_expiry wq0 wenv wtx9 rfl (by simp [wq0])).1 1 (by decide),
   (ban_shift_expiry wq0 wenv wtx9 rfl (by simp [wq0])).2⟩

theorem capacity_ban_only_witness :
    tryAdd wq1 wenvSmall ⟨777, 0, EnvType.Plain, 1, 1, 8, 1, 10⟩ =
      (AddResult.TryAgainLater, none, insertFront wq1 777) :=
  (capacity_ban_only wq1 wenvSmall ⟨777, 0, EnvType.Plain, 1, 1, 8, 1, 10⟩
    ⟨[wt1], 100, 1, 0⟩ wt1 [] (by decide) rfl rfl rfl (by decide) (by decide)
    (by decide)).1

theorem reservation_check_witness :
    tryAdd wq1 wenvLow ⟨205, 101, EnvType.FeeBump, 1, 1, 5, 1, 1000⟩ =
      (AddResult.Error, some RCode.InsufficientBalance, wq1) :=
  (reservation_check wq1 wenvLow ⟨205, 101, EnvType.FeeBump, 1, 1, 5, 1, 1000⟩ wt1
    ⟨[wt1], 100, 1, 0⟩ wt1 [] 0 (by decide) rfl (by decide) rfl rfl rfl
    (by decide) (by decide) (by decide) (by decide) rfl).mpr (by decide)

theorem replaceByFee_rule_witness :
    tryAdd wq1 wenv ⟨203, 101, EnvType.FeeBump, 1, 1, 5, 1, 999⟩ =
      (AddResult.Error, some RCode.InsufficientFee, wq1) :=
  (replaceByFee_rule wq1 wenv ⟨203, 101, EnvType.FeeBump, 1, 1, 5, 1, 999⟩ wt1
    ⟨[wt1], 100, 1, 0⟩ wt1 [] 0 (by decide) rfl (by decide) rfl rfl rfl
    (by decide) (by decide) (by decide) (by decide) (by decide) (by decide)
    (by decide) (by decide)).2.2 (by decide)

theorem feeBump_append_at_tail_witness :
    (tryAdd wq1 wenv ⟨601, 0, EnvType.FeeBump, 1, 1, 6, 1, 70⟩).1 =
      AddResult.Pending :=
  ((feeBump_append_at_tail wq1 wenv ⟨601, 0, EnvType.FeeBump, 1, 1, 6, 1, 70⟩
    ⟨[wt1], 100, 1, 0⟩ wt1 [] (by simp [wq1]) (by decide) rfl rfl rfl
    (fun j hj => match j, hj with | 0, _ => rfl) (by decide)).2.2
    (by decide) rfl (by decide)).1

theorem feeBump_out_of_range_badSeq_witness :
    tryAdd wq1 wenv ⟨502, 0, EnvType.FeeBump, 1, 1, 12, 1, 50⟩ =
      (AddResult.Error, some RCode.BadSeq, wq1) :=
  feeBump_out_of_range_badSeq wq1 wenv ⟨502, 0, EnvType.FeeBump, 1, 1, 12, 1, 50⟩
    ⟨[wt1], 100, 1, 0⟩ wt1 [] (by decide) rfl rfl rfl (by decide)

/-! ### Cross-account fee release accounting

`releaseFeeMaybeEraseAccountState` may modify the entry of any account (the
fee source of the released transaction), erasing it when its queue is empty
and its reserve is exactly consumed.  The lemmas below characterise a run
of such releases on every account at once. -/

/-- The `mAccountStates` effect of `releaseFeeMaybeEraseAccountState`
(TransactionQueue.cpp:204-219) as a map-level function. -/
def releaseAcct (m : AccountStates) (t : Tx) : AccountStates :=
  match findAcct m t.feeSourceID with
  | none => m
  | some s =>
    if s.mTransactions = [] ∧ s.mTotalFees - t.feeBid = 0 then
      eraseAcct m t.feeSourceID
    else
      updateAcct m t.feeSourceID
        (fun s2 => { s2 with mTotalFees := s2.mTotalFees - t.feeBid })

theorem releaseFee_eq (q : TxQueue) (t : Tx) :
    releaseFeeMaybeEraseAccountState q t =
      { q with mAccountStates := releaseAcct q.mAccountStates t } := by
  unfold releaseFeeMaybeEraseAccountState releaseAcct
  cases h : findAcct q.mAccountStates t.feeSourceID with
  | none => rfl
  | some s =>
    dsimp only
    split
    · rfl
    · rfl

/-- The fee released into account `c` when the transactions of `L` are
dropped or evicted: the sum of the `feeBid`s of those fee-sourced at `c`. -/
def feeToward (c : Nat) (L : List Tx) : Int :=
  feeSum (L.filter (fun v => v.feeSourceID = c))

theorem feeToward_nil (c : Nat) : feeToward c [] = 0 := rfl

theorem feeToward_cons (c : Nat) (t : Tx) (L : List Tx) :
    feeToward c (t :: L) =
      (if t.feeSourceID = c then t.feeBid else 0) + feeToward c L := by
  unfold feeToward
  by_cases h : t.feeSourceID = c
  · rw [List.filter_cons_of_pos (by simp [h]), if_pos h]
    simp [feeSum_cons]
  · rw [List.filter_cons_of_neg (by simp [h]), if_neg h]
    simp

theorem feeToward_append (c : Nat) (L1 L2 : List Tx) :
    feeToward c (L1 ++ L2) = feeToward c L1 + feeToward c L2 := by
  unfold feeToward feeSum
  rw [List.filter_append]
  simp

theorem feeToward_nonneg (c : Nat) (L : List Tx)
    (h : ∀ v ∈ L, v.feeSourceID = c → 0 ≤ v.feeBid) : 0 ≤ feeToward c L := by
  induction L with
  | nil => simp [feeToward, feeSum]
  | cons t L2 ih =>
    rw [feeToward_cons]
    have h2 := ih (fun v hv hc => h v (by simp [hv]) hc)
    by_cases hc : t.feeSourceID = c
    · have h1 := h t (by simp) hc
      rw [if_pos hc]
      omega
    · rw [if_neg hc]
      omega

/-- The net per-account effect of a run of fee releases totalling `r` at
this account: the reserve drops by `r`, and an entry with no queued
transactions whose (non-zero) reserve is exactly consumed is erased. -/
def afterRel : Option AccountState → Int → Option AccountState
  | none, _ => none
  | some sc, r =>
    if sc.mTransactions = [] ∧ sc.mTotalFees - r = 0 ∧ sc.mTotalFees ≠ 0 then
      none
    else some { sc with mTotalFees := sc.mTotalFees - r }

theorem afterRel_zero (e : Option AccountState) : afterRel e 0 = e := by
  cases e with
  | none => rfl
  | some sc =>
    simp only [afterRel]
    rw [if_neg (fun h => h.2.2 (by simpa using h.2.1))]
    simp

theorem afterRel_afterRel (e : Option AccountState) (r1 r2 : Int)
    (h2 : 0 ≤ r2)
    (hb : ∀ sc, e = some sc → r1 + r2 ≤ sc.mTotalFees)
    (he : ∀ sc, e = some sc → sc.mTransactions = [] → sc.mTotalFees ≠ 0) :
    afterRel (afterRel e r1) r2 = afterRel e (r1 + r2) := by
  cases e with
  | none => rfl
  | some sc =>
    have hbb : r1 + r2 ≤ sc.mTotalFees := hb sc rfl
    have harith : sc.mTotalFees - r1 - r2 = sc.mTotalFees - (r1 + r2) := by ring
    by_cases hc1 : sc.mTransactions = [] ∧ sc.mTotalFees - r1 = 0 ∧
        sc.mTotalFees ≠ 0
    · have h1 : afterRel (some sc) r1 = none := by
        simp only [afterRel]
        rw [if_pos hc1]
      have h3 : afterRel (some sc) (r1 + r2) = none := by
        simp only [afterRel]
        obtain ⟨ht, hz, hf⟩ := hc1
        rw [if_pos ⟨ht, by omega, hf⟩]
      rw [h1, h3]
      rfl
    · have h1 : afterRel (some sc) r1 =
          some { sc with mTotalFees := sc.mTotalFees - r1 } := by
        simp only [afterRel]
        rw [if_neg hc1]
      rw [h1]
      by_cases hc2 : sc.mTransactions = [] ∧ sc.mTotalFees - r1 - r2 = 0 ∧
          sc.mTotalFees - r1 ≠ 0
      · have h2' : afterRel (some { sc with mTotalFees := sc.mTotalFees - r1 })
            r2 = none := by
          simp only [afterRel]
          rw [if_pos hc2]
        have h3 : afterRel (some sc) (r1 + r2) = none := by
          simp only [afterRel]
          have hfe : sc.mTotalFees ≠ 0 := he sc rfl hc2.1
          rw [if_pos ⟨hc2.1, by omega, hfe⟩]
        rw [h2', h3]
      · have h2' : afterRel (some { sc with mTotalFees := sc.mTotalFees - r1 })
            r2 = some { sc with mTotalFees := sc.mTotalFees - r1 - r2 } := by
          simp only [afterRel]
          rw [if_neg hc2]
        have h3 : afterRel (some sc) (r1 + r2) =
            some { sc with mTotalFees := sc.mTotalFees - (r1 + r2) } := by
          simp only [afterRel]
          rw [if_neg (by
            intro hcond
            obtain ⟨ht, hz, hf⟩ := hcond
            have hz' : sc.mTotalFees - r1 - r2 = 0 := by omega
            have hz1 : sc.mTotalFees - r1 = 0 := by
              by_contra hne
              exact hc2 ⟨ht, hz', hne⟩
            exact hc1 ⟨ht, hz1, hf⟩)]
        rw [h2', h3, harith]

theorem updateAcct_comm (m : AccountStates) (k1 k2 : Nat)
    (f g : AccountState → AccountState) (h : k1 ≠ k2) :
    updateAcct (updateAcct m k1 f) k2 g = updateAcct (updateAcct m k2 g) k1 f := by
  induction m with
  | nil => rfl
  | cons p rest ih =>
    obtain ⟨a, s⟩ := p
    by_cases h1 : a = k1
    · have h2 : ¬ a = k2 := fun hc => h (h1 ▸ hc ▸ rfl)
      simp only [updateAcct, if_pos h1, if_neg h2]
    · by_cases h2 : a = k2
      · simp only [updateAcct, if_pos h2, if_neg h1]
      · simp only [updateAcct, if_neg h1, if_neg h2, ih]

theorem eraseAcct_updateAcct_comm (m : AccountStates) (k1 k2 : Nat)
    (f : AccountState → AccountState) (h : k1 ≠ k2) :
    eraseAcct (updateAcct m k1 f) k2 = updateAcct (eraseAcct m k2) k1 f := by
  induction m with
  | nil => rfl
  | cons p rest ih =>
    obtain ⟨a, s⟩ := p
    by_cases h1 : a = k1
    · have h2 : ¬ a = k2 := fun hc => h (h1 ▸ hc ▸ rfl)
      simp only [updateAcct, eraseAcct, if_pos h1, if_neg h2]
    · by_cases h2 : a = k2
      · simp only [updateAcct, eraseAcct, if_pos h2, if_neg h1]
      · simp only [updateAcct, eraseAcct, if_neg h1, if_neg h2, ih]

theorem eraseAcct_updateAcct_self (m : AccountStates) (k : Nat)
    (f : AccountState → AccountState) :
    eraseAcct (updateAcct m k f) k = eraseAcct m k := by
  induction m with
  | nil => rfl
  | cons p rest ih =>
    obtain ⟨a, s⟩ := p
    by_cases h1 : a = k
    · simp only [updateAcct, eraseAcct, if_pos h1]
    · simp only [updateAcct, eraseAcct, if_neg h1, ih]

theorem releaseAcct_nodup (m : AccountStates) (t : Tx)
    (h : (m.map Prod.fst).Nodup) :
    ((releaseAcct m t).map Prod.fst).Nodup := by
  unfold releaseAcct
  cases hf : findAcct m t.feeSourceID with
  | none => exact h
  | some s =>
    dsimp only
    split
    · exact (keys_eraseAcct_sublist m _).nodup h
    · rw [keys_updateAcct]
      exact h

theorem findAcct_releaseAcct_ne (m : AccountStates) (t : Tx) (c : Nat)
    (h : c ≠ t.feeSourceID) :
    findAcct (releaseAcct m t) c = findAcct m c := by
  unfold releaseAcct
  cases hf : findAcct m t.feeSourceID with
  | none => rfl
  | some s =>
    dsimp only
    split
    · exact findAcct_eraseAcct_ne _ _ _ h
    · exact findAcct_updateAcct_ne _ _ _ _ h

theorem releaseAcct_updateAcct (m : AccountStates) (k : Nat)
    (f : AccountState → AccountState) (t : Tx)
    (hnd : (m.map Prod.fst).Nodup)
    (hf1 : ∀ s, (f s).mTransactions = s.mTransactions)
    (hf2 : ∀ s, (f s).mTotalFees = s.mTotalFees)
    (hf : ∀ s x, f { s with mTotalFees := x } = { f s with mTotalFees := x }) :
    releaseAcct (updateAcct m k f) t = updateAcct (releaseAcct m t) k f := by
  by_cases hk : t.feeSourceID = k
  · subst hk
    cases hfind : findAcct m t.feeSourceID with
    | none =>
      rw [updateAcct_absent m _ f hfind]
      unfold releaseAcct
      rw [hfind]
      exact (updateAcct_absent m _ f hfind).symm
    | some s =>
      have hup : findAcct (updateAcct m t.feeSourceID f) t.feeSourceID =
          some (f s) := by
        rw [findAcct_updateAcct_self, hfind]
        rfl
      unfold releaseAcct
      rw [hup, hfind]
      dsimp only
      rw [hf1 s, hf2 s]
      by_cases hc : s.mTransactions = [] ∧ s.mTotalFees - t.feeBid = 0
      · rw [if_pos hc, if_pos hc]
        rw [eraseAcct_updateAcct_self]
        exact (updateAcct_absent _ _ _ (findAcct_eraseAcct_self m _ hnd)).symm
      · rw [if_neg hc, if_neg hc]
        rw [updateAcct_updateAcct, updateAcct_updateAcct]
        congr 1
        funext s0
        rw [hf s0 (s0.mTotalFees - t.feeBid), hf2 s0]
  · cases hfind : findAcct m t.feeSourceID with
    | none =>
      have hup : findAcct (updateAcct m k f) t.feeSourceID = none := by
        rw [findAcct_updateAcct_ne _ _ _ _ hk]
        exact hfind
      unfold releaseAcct
      rw [hup, hfind]
    | some s =>
      have hup : findAcct (updateAcct m k f) t.feeSourceID = some s := by
        rw [findAcct_updateAcct_ne _ _ _ _ hk]
        exact hfind
      unfold releaseAcct
      rw [hup, hfind]
      dsimp only
      by_cases hc : s.mTransactions = [] ∧ s.mTotalFees - t.feeBid = 0
      · rw [if_pos hc, if_pos hc]
        exact eraseAcct_updateAcct_comm m k _ f (fun hc2 => hk hc2.symm)
      · rw [if_neg hc, if_neg hc]
        exact updateAcct_comm m k _ f _ (fun hc2 => hk hc2.symm)

theorem relRun_nodup (L : List Tx) (m : AccountStates)
    (h : (m.map Prod.fst).Nodup) :
    (((L.foldl releaseAcct m)).map Prod.fst).Nodup := by
  induction L generalizing m with
  | nil => exact h
  | cons t L2 ih =>
    rw [List.foldl_cons]
    exact ih _ (releaseAcct_nodup m t h)

theorem relRun_updateAcct (L : List Tx) (m : AccountStates) (k : Nat)
    (f : AccountState → AccountState)
    (hnd : (m.map Prod.fst).Nodup)
    (hf1 : ∀ s, (f s).mTransactions = s.mTransactions)
    (hf2 : ∀ s, (f s).mTotalFees = s.mTotalFees)
    (hf : ∀ s x, f { s with mTotalFees := x } = { f s with mTotalFees := x }) :
    L.foldl releaseAcct (updateAcct m k f) =
      updateAcct (L.foldl releaseAcct m) k f := by
  induction L generalizing m with
  | nil => rfl
  | cons t L2 ih =>
    simp only [List.foldl_cons]
    rw [releaseAcct_updateAcct m k f t hnd hf1 hf2 hf]
    exact ih _ (releaseAcct_nodup m t hnd)

theorem relRun_absent (L : List Tx) (m : AccountStates) (c : Nat)
    (h : findAcct m c = none) :
    findAcct (L.foldl releaseAcct m) c = none := by
  induction L generalizing m with
  | nil => exact h
  | cons t L2 ih =>
    rw [List.foldl_cons]
    apply ih
    by_cases hcf : c = t.feeSourceID
    · unfold releaseAcct
      rw [← hcf, h]
      dsimp only
      exact h
    · rw [findAcct_releaseAcct_ne _ _ _ hcf]
      exact h

theorem relRun_nonempty (L : List Tx) (m : AccountStates) (c : Nat)
    (sc : AccountState) (hnd : (m.map Prod.fst).Nodup)
    (h : findAcct m c = some sc) (hne : sc.mTransactions ≠ []) :
    findAcct (L.foldl releaseAcct m) c =
      some { sc with mTotalFees := sc.mTotalFees - feeToward c L } := by
  induction L generalizing m sc with
  | nil =>
    rw [List.foldl_nil, h, feeToward_nil]
    simp
  | cons t L2 ih =>
    rw [List.foldl_cons, feeToward_cons]
    by_cases hcf : t.feeSourceID = c
    · have hrel : releaseAcct m t =
          updateAcct m c
            (fun s2 => { s2 with mTotalFees := s2.mTotalFees - t.feeBid }) := by
        unfold releaseAcct
        rw [hcf, h]
        dsimp only
        rw [if_neg (fun hcc => hne hcc.1)]
      rw [hrel]
      rw [ih _ { sc with mTotalFees := sc.mTotalFees - t.feeBid }
        (by rw [keys_updateAcct]; exact hnd)
        (by rw [findAcct_updateAcct_self, h]; rfl)
        (by simpa using hne)]
      rw [if_pos hcf]
      have harith : sc.mTotalFees - t.feeBid - feeToward c L2 =
          sc.mTotalFees - (t.feeBid + feeToward c L2) := by ring
      rw [harith]
    · rw [if_neg hcf, zero_add]
      apply ih _ sc (releaseAcct_nodup m t hnd) _ hne
      rw [findAcct_releaseAcct_ne _ _ _ (fun hcc => hcf hcc.symm)]
      exact h

theorem relRun_afterRel (L : List Tx) (m : AccountStates) (c : Nat)
    (hnd : (m.map Prod.fst).Nodup)
    (hnn : ∀ t ∈ L, t.feeSourceID = c → 0 ≤ t.feeBid)
    (hb : ∀ sc, findAcct m c = some sc → feeToward c L ≤ sc.mTotalFees)
    (he : ∀ sc, findAcct m c = some sc → sc.mTransactions = [] →
      sc.mTotalFees ≠ 0) :
    findAcct (L.foldl releaseAcct m) c = afterRel (findAcct m c) (feeToward c L) := by
  induction L generalizing m with
  | nil =>
    rw [List.foldl_nil, feeToward_nil, afterRel_zero]
  | cons t L2 ih =>
    rw [List.foldl_cons, feeToward_cons]
    by_cases hcf : t.feeSourceID = c
    · rw [if_pos hcf]
      cases h : findAcct m c with
      | none =>
        have hrel : releaseAcct m t = m := by
          unfold releaseAcct
          rw [hcf, h]
        rw [hrel, relRun_absent L2 m c h]
        rfl
      | some sc =>
        have hbid : 0 ≤ t.feeBid := hnn t (by simp) hcf
        have hbL : t.feeBid + feeToward c L2 ≤ sc.mTotalFees := by
          have := hb sc h
          rwa [feeToward_cons, if_pos hcf] at this
        have hnnL2 : 0 ≤ feeToward c L2 :=
          feeToward_nonneg c L2 (fun v hv hc2 => hnn v (by simp [hv]) hc2)
        by_cases hcond : sc.mTransactions = [] ∧ sc.mTotalFees - t.feeBid = 0
        · have hrel : releaseAcct m t = eraseAcct m c := by
            unfold releaseAcct
            rw [hcf, h]
            dsimp only
            rw [if_pos hcond]
          rw [hrel, relRun_absent L2 _ c (findAcct_eraseAcct_self m c hnd)]
          have hfe : sc.mTotalFees ≠ 0 := he sc h hcond.1
          have hft2 : feeToward c L2 = 0 := by omega
          simp only [afterRel]
          rw [if_pos ⟨hcond.1, by omega, hfe⟩]
        · have hrel : releaseAcct m t =
              updateAcct m c
                (fun s2 => { s2 with mTotalFees := s2.mTotalFees - t.feeBid }) := by
            unfold releaseAcct
            rw [hcf, h]
            dsimp only
            rw [if_neg hcond]
          rw [hrel]
          rw [ih (updateAcct m c _)
            (by rw [keys_updateAcct]; exact hnd)
            (fun v hv hc2 => hnn v (by simp [hv]) hc2)
            (by
              intro sc2 hsc2
              rw [findAcct_updateAcct_self, h] at hsc2
              have hsc2' : ({ sc with mTotalFees := sc.mTotalFees - t.feeBid } :
                  AccountState) = sc2 := by
                simpa using hsc2
              rw [← hsc2']
              dsimp only
              omega)
            (by
              intro sc2 hsc2 hte
              rw [findAcct_updateAcct_self, h] at hsc2
              have hsc2' : ({ sc with mTotalFees := sc.mTotalFees - t.feeBid } :
                  AccountState) = sc2 := by
                simpa using hsc2
              rw [← hsc2'] at hte ⊢
              dsimp only at hte ⊢
              exact fun hz => hcond ⟨hte, hz⟩)]
          rw [findAcct_updateAcct_self, h]
          show afterRel (some { sc with mTotalFees := sc.mTotalFees - t.feeBid })
              (feeToward c L2) = _
          by_cases ht : sc.mTransactions = []
          · have hfe : sc.mTotalFees ≠ 0 := he sc h ht
            have hfe' : sc.mTotalFees - t.feeBid ≠ 0 := fun hz => hcond ⟨ht, hz⟩
            simp only [afterRel]
            by_cases hz2 : sc.mTotalFees - t.feeBid - feeToward c L2 = 0
            · rw [if_pos ⟨ht, hz2, hfe'⟩, if_pos ⟨ht, by omega, hfe⟩]
            · rw [if_neg (fun hcc => hz2 hcc.2.1),
                if_neg (fun hcc => hz2 (by omega))]
              have harith : sc.mTotalFees - t.feeBid - feeToward c L2 =
                  sc.mTotalFees - (t.feeBid + feeToward c L2) := by ring
              rw [harith]
          · simp only [afterRel]
            rw [if_neg (fun hcc => ht hcc.1), if_neg (fun hcc => ht hcc.1)]
            have harith : sc.mTotalFees - t.feeBid - feeToward c L2 =
                sc.mTotalFees - (t.feeBid + feeToward c L2) := by ring
            rw [harith]
    · rw [if_neg hcf, zero_add]
      have hfr : findAcct (releaseAcct m t) c = findAcct m c :=
        findAcct_releaseAcct_ne _ _ _ (fun hcc => hcf hcc.symm)
      rw [← hfr]
      apply ih _ (releaseAcct_nodup m t hnd)
        (fun v hv hc2 => hnn v (by simp [hv]) hc2)
      · intro sc hsc
        rw [hfr] at hsc
        have := hb sc hsc
        rwa [feeToward_cons, if_neg hcf, zero_add] at this
      · intro sc hsc
        rw [hfr] at hsc
        exact he sc hsc

/-! ### C3: shift evicts every account that reaches pending_depth -/

theorem afterRel_some_inv (e : Option AccountState) (r : Int)
    (sc2 : AccountState) (h : afterRel e r = some sc2) :
    ∃ sc, e = some sc ∧ sc2 = { sc with mTotalFees := sc.mTotalFees - r } ∧
      (sc.mTransactions = [] → sc.mTotalFees ≠ 0 →
        sc.mTotalFees - r ≠ 0) := by
  cases e with
  | none => cases h
  | some sc =>
    simp only [afterRel] at h
    by_cases hc : sc.mTransactions = [] ∧ sc.mTotalFees - r = 0 ∧
        sc.mTotalFees ≠ 0
    · rw [if_pos hc] at h
      cases h
    · rw [if_neg hc] at h
      refine ⟨sc, rfl, ?_, ?_⟩
      · exact (Option.some_inj.mp h).symm
      · intro ht hf hz
        exact hc ⟨ht, hz, hf⟩

/-- The transactions `removeApplied` drops from the account of `kv.1` when
its highest applied sequence number is `kv.2`: the queued prefix with
`seqNum ≤ kv.2`, and nothing when the head is already beyond it
(TransactionQueue.cpp:303-353, with invariant 4's contiguity). -/
def droppedAt (q : TxQueue) (kv : Nat × Int) : List Tx :=
  match findAcct q.mAccountStates kv.1 with
  | none => []
  | some s =>
    match s.mTransactions with
    | [] => []
    | t :: ts =>
      if t.seqNum ≤ kv.2 then
        (t :: ts).filter (fun v => decide (v.seqNum ≤ kv.2))
      else []

/-- All transactions a `removeApplied` pass over the per-account map `KM`
drops, in map iteration order. -/
def removeDroppedOf (q : TxQueue) (KM : List (Nat × Int)) : List Tx :=
  KM.flatMap (droppedAt q)

/-- All transactions `removeApplied q applied` drops. -/
def removeAppliedDropped (q : TxQueue) (applied : List Tx) : List Tx :=
  removeDroppedOf q (buildSeqByAccount applied)

/-- Lookup in the `seqByAccount` association list. -/
def lookupSeq : List (Nat × Int) → Nat → Option Int
  | [], _ => none
  | (b, v) :: rest, k => if b = k then some v else lookupSeq rest k

/-- The highest applied sequence number recorded for source account `a`
(`seqByAccount[a]`, default-constructed at 0; TransactionQueue.cpp:296-301). -/
def maxAppliedSeq (applied : List Tx) (a : Nat) : Int :=
  applied.foldl (fun acc u => if u.sourceID = a then max acc u.seqNum else acc) 0

theorem updateAcct_congr_id (m : AccountStates) (k : Nat)
    (f : AccountState → AccountState) (hf : ∀ s, f s = s) :
    updateAcct m k f = m := by
  induction m with
  | nil => rfl
  | cons p rest ih =>
    obtain ⟨a, s⟩ := p
    by_cases ha : a = k
    · simp only [updateAcct, if_pos ha, hf]
    · simp only [updateAcct, if_neg ha, ih]

/-- The per-transaction loop of `dropTransactions`
(TransactionQueue.cpp:267-272) for arbitrary fee sources: the global and
per-account op counters drop by the batch's ops and the fees are released
at each transaction's own fee source. -/
theorem dropLoop_run (L : List Tx) (q : TxQueue) (k : Nat)
    (hnd : (q.mAccountStates.map Prod.fst).Nodup) :
    dropLoop q k L =
      { q with
        mAccountStates := updateAcct (L.foldl releaseAcct q.mAccountStates) k (fun s0 => { s0 with mQueueSizeOps := s0.mQueueSizeOps - opsSum L }),
        mQueueSizeOps := q.mQueueSizeOps - opsSum L } := by
  induction L generalizing q with
  | nil =>
    have h1 : updateAcct (([] : List Tx).foldl releaseAcct q.mAccountStates) k (fun s0 => { s0 with mQueueSizeOps := s0.mQueueSizeOps - opsSum [] }) = q.mAccountStates := by
      rw [List.foldl_nil]
      apply updateAcct_congr_id
      intro s0
      show ({ s0 with mQueueSizeOps := s0.mQueueSizeOps - opsSum [] } : AccountState) = s0
      rw [show opsSum [] = 0 from rfl]
      simp
    unfold dropLoop
    rw [h1, show opsSum [] = 0 from rfl]
    simp
  | cons t L2 ih =>
    have hstep : dropLoop q k (t :: L2) =
        dropLoop { q with mAccountStates := updateAcct (releaseAcct q.mAccountStates t) k (fun s0 => { s0 with mQueueSizeOps := s0.mQueueSizeOps - (t.numOps : Int) }), mQueueSizeOps := q.mQueueSizeOps - (t.numOps : Int) } k L2 := by
      show dropLoop (releaseFeeMaybeEraseAccountState { q with mAccountStates := updateAcct q.mAccountStates k (fun s => { s with mQueueSizeOps := s.mQueueSizeOps - (t.numOps : Int) }), mQueueSizeOps := q.mQueueSizeOps - (t.numOps : Int) } t) k L2 = _
      rw [releaseFee_eq]
      rw [show ({ q with mAccountStates := updateAcct q.mAccountStates k (fun s => { s with mQueueSizeOps := s.mQueueSizeOps - (t.numOps : Int) }), mQueueSizeOps := q.mQueueSizeOps - (t.numOps : Int) } : TxQueue).mAccountStates = updateAcct q.mAccountStates k (fun s => { s with mQueueSizeOps := s.mQueueSizeOps - (t.numOps : Int) }) from rfl]
      rw [releaseAcct_updateAcct q.mAccountStates k (fun s => { s with mQueueSizeOps := s.mQueueSizeOps - (t.numOps : Int) }) t hnd (fun _ => rfl) (fun _ => rfl) (fun _ _ => rfl)]
    rw [hstep]
    have hnd2 : ((updateAcct (releaseAcct q.mAccountStates t) k (fun s0 => { s0 with mQueueSizeOps := s0.mQueueSizeOps - (t.numOps : Int) })).map Prod.fst).Nodup := by
      rw [keys_updateAcct]
      exact releaseAcct_nodup _ _ hnd
    rw [ih { q with mAccountStates := updateAcct (releaseAcct q.mAccountStates t) k (fun s0 => { s0 with mQueueSizeOps := s0.mQueueSizeOps - (t.numOps : Int) }), mQueueSizeOps := q.mQueueSizeOps - (t.numOps : Int) } hnd2]
    have hm : L2.foldl releaseAcct (updateAcct (releaseAcct q.mAccountStates t) k (fun s0 => { s0 with mQueueSizeOps := s0.mQueueSizeOps - (t.numOps : Int) })) = updateAcct (L2.foldl releaseAcct (releaseAcct q.mAccountStates t)) k (fun s0 => { s0 with mQueueSizeOps := s0.mQueueSizeOps - (t.numOps : Int) }) :=
      relRun_updateAcct _ _ _ _ (releaseAcct_nodup _ _ hnd) (fun _ => rfl) (fun _ => rfl) (fun _ _ => rfl)
    show ({ q with mAccountStates := updateAcct (L2.foldl releaseAcct (updateAcct (releaseAcct q.mAccountStates t) k (fun s0 => { s0 with mQueueSizeOps := s0.mQueueSizeOps - (t.numOps : Int) }))) k (fun s0 => { s0 with mQueueSizeOps := s0.mQueueSizeOps - opsSum L2 }), mQueueSizeOps := q.mQueueSizeOps - (t.numOps : Int) - opsSum L2 } : TxQueue) = _
    rw [hm, updateAcct_updateAcct, List.foldl_cons]
    have hops : q.mQueueSizeOps - (t.numOps : Int) - opsSum L2 =
        q.mQueueSizeOps - opsSum (t :: L2) := by
      rw [opsSum_cons]
      ring
    rw [hops]
    have hfun : (fun s0 : AccountState => { { s0 with mQueueSizeOps := s0.mQueueSizeOps - (t.numOps : Int) } with mQueueSizeOps := ({ s0 with mQueueSizeOps := s0.mQueueSizeOps - (t.numOps : Int) } : AccountState).mQueueSizeOps - opsSum L2 }) = (fun s0 : AccountState => { s0 with mQueueSizeOps := s0.mQueueSizeOps - opsSum (t :: L2) }) := by
      funext s0
      show ({ s0 with mQueueSizeOps := s0.mQueueSizeOps - (t.numOps : Int) - opsSum L2 } : AccountState) = _
      rw [show s0.mQueueSizeOps - (t.numOps : Int) - opsSum L2 = s0.mQueueSizeOps - opsSum (t :: L2) from by rw [opsSum_cons]; ring]
    rw [hfun]

/-- `dropTransactions` (TransactionQueue.cpp:258-290) on the prefix
`[0, e)` of account `k`'s queue, for arbitrary fee sources: its op
counters drop by the dropped ops, every dropped fee is released at its own
fee source, and the account is erased exactly when it is emptied with a
fully consumed reserve. -/
theorem dropTransactions_run (q : TxQueue) (k : Nat) (s : AccountState)
    (t : Tx) (ts : List Tx) (e : Nat)
    (hnd : (q.mAccountStates.map Prod.fst).Nodup)
    (hacct : findAcct q.mAccountStates k = some s)
    (htxs : s.mTransactions = t :: ts) :
    (dropTransactions q k 0 e).mBannedTransactions = q.mBannedTransactions
    ∧ (dropTransactions q k 0 e).mSizeByAge = q.mSizeByAge
    ∧ (dropTransactions q k 0 e).mPendingDepth = q.mPendingDepth
    ∧ (dropTransactions q k 0 e).mQueueSizeOps =
        q.mQueueSizeOps - opsSum ((t :: ts).take e)
    ∧ ((dropTransactions q k 0 e).mAccountStates.map Prod.fst).Nodup
    ∧ findAcct (dropTransactions q k 0 e).mAccountStates k =
        (if (t :: ts).drop e = [] ∧
            s.mTotalFees - feeToward k ((t :: ts).take e) = 0
          then none
          else some ⟨(t :: ts).drop e,
            s.mTotalFees - feeToward k ((t :: ts).take e),
            s.mQueueSizeOps - opsSum ((t :: ts).take e),
            if (t :: ts).drop e = [] then 0 else s.mAge⟩)
    ∧ (∀ c, c ≠ k → findAcct (dropTransactions q k 0 e).mAccountStates c =
        findAcct (((t :: ts).take e).foldl releaseAcct q.mAccountStates) c) := by
  have hne : s.mTransactions ≠ [] := by
    rw [htxs]
    exact List.cons_ne_nil _ _
  have hdl := dropLoop_run ((t :: ts).take e) q k hnd
  have hfb : findAcct (((t :: ts).take e).foldl releaseAcct q.mAccountStates) k =
      some { s with mTotalFees := s.mTotalFees - feeToward k ((t :: ts).take e) } :=
    relRun_nonempty _ _ _ _ hnd hacct hne
  have hndR : ((((t :: ts).take e).foldl releaseAcct
      q.mAccountStates).map Prod.fst).Nodup := relRun_nodup _ _ hnd
  have hkey2 : ∀ (f g : AccountState → AccountState),
      (List.map Prod.fst (updateAcct (updateAcct
        (((t :: ts).take e).foldl releaseAcct q.mAccountStates) k f) k g)).Nodup := by
    intro f g
    rw [keys_updateAcct, keys_updateAcct]
    exact hndR
  have hfind2 : findAcct
      (updateAcct
        (updateAcct (((t :: ts).take e).foldl releaseAcct q.mAccountStates) k
          (fun s0 => { s0 with
            mQueueSizeOps := s0.mQueueSizeOps - opsSum ((t :: ts).take e) })) k
        (fun s2 => { s2 with
          mTransactions := s2.mTransactions.take 0 ++ s2.mTransactions.drop e }))
      k = some ⟨(t :: ts).drop e,
        s.mTotalFees - feeToward k ((t :: ts).take e),
        s.mQueueSizeOps - opsSum ((t :: ts).take e), s.mAge⟩ := by
    rw [updateAcct_updateAcct, findAcct_updateAcct_self, hfb]
    simp [htxs]
  simp only [dropTransactions, hacct, htxs, List.drop_zero, Nat.sub_zero, hdl]
  simp only [hfind2]
  by_cases hrem : (t :: ts).drop e = []
  · by_cases hfee : s.mTotalFees - feeToward k ((t :: ts).take e) = 0
    · simp only [hrem, hfee, eq_self_iff_true, and_self, if_true]
      refine ⟨trivial, trivial, trivial, trivial, ?_, ?_, ?_⟩
      · exact (keys_eraseAcct_sublist _ _).nodup (hkey2 _ _)
      · rw [findAcct_eraseAcct_self _ _ (hkey2 _ _)]
      · intro c hc
        rw [findAcct_eraseAcct_ne _ _ _ hc, findAcct_updateAcct_ne _ _ _ _ hc,
          findAcct_updateAcct_ne _ _ _ _ hc]
    · simp only [hrem, hfee, eq_self_iff_true, and_true, true_and, if_true,
        if_false, eq_self_iff_true]
      refine ⟨?_, ?_, ?_⟩
      · rw [keys_updateAcct]
        exact hkey2 _ _
      · rw [findAcct_updateAcct_self, hfind2, hrem]
        rfl
      · intro c hc
        rw [findAcct_updateAcct_ne _ _ _ _ hc, findAcct_updateAcct_ne _ _ _ _ hc,
          findAcct_updateAcct_ne _ _ _ _ hc]
  · simp only [hrem, false_and, if_false]
    refine ⟨trivial, trivial, trivial, trivial, ?_, ?_, ?_⟩
    · exact hkey2 _ _
    · rw [hfind2]
    · intro c hc
      rw [findAcct_updateAcct_ne _ _ _ _ hc, findAcct_updateAcct_ne _ _ _ _ hc]

/-- `removeAppliedOne` (the per-account body of `removeApplied`,
TransactionQueue.cpp:303-353) at an account present with a non-empty
contiguous queue: nothing happens when the head is beyond the applied
maximum; otherwise exactly the queued prefix with `seqNum ≤ M` is dropped,
its fees released at their own fee sources, and the age reset to 0. -/
theorem removeAppliedOne_run (q : TxQueue) (b : Nat) (M : Int)
    (s : AccountState) (t : Tx) (ts : List Tx)
    (hnd : (q.mAccountStates.map Prod.fst).Nodup)
    (hacct : findAcct q.mAccountStates b = some s)
    (htxs : s.mTransactions = t :: ts)
    (hcontig : ∀ j (hj : j < (t :: ts).length),
      ((t :: ts).get ⟨j, hj⟩).seqNum = t.seqNum + j) :
    (M < t.seqNum → removeAppliedOne q b M = q)
    ∧ (t.seqNum ≤ M →
        (removeAppliedOne q b M).mBannedTransactions = q.mBannedTransactions
        ∧ (removeAppliedOne q b M).mPendingDepth = q.mPendingDepth
        ∧ (removeAppliedOne q b M).mQueueSizeOps =
            q.mQueueSizeOps -
              opsSum ((t :: ts).filter (fun v => decide (v.seqNum ≤ M)))
        ∧ ((removeAppliedOne q b M).mAccountStates.map Prod.fst).Nodup
        ∧ findAcct (removeAppliedOne q b M).mAccountStates b =
            (if (t :: ts).filter (fun v => decide (M < v.seqNum)) = [] ∧
                s.mTotalFees -
                  feeToward b ((t :: ts).filter (fun v => decide (v.seqNum ≤ M))) =
                    0
              then none
              else some ⟨(t :: ts).filter (fun v => decide (M < v.seqNum)),
                s.mTotalFees -
                  feeToward b ((t :: ts).filter (fun v => decide (v.seqNum ≤ M))),
                s.mQueueSizeOps -
                  opsSum ((t :: ts).filter (fun v => decide (v.seqNum ≤ M))), 0⟩)
        ∧ (∀ c, c ≠ b → findAcct (removeAppliedOne q b M).mAccountStates c =
            findAcct (((t :: ts).filter
              (fun v => decide (v.seqNum ≤ M))).foldl releaseAcct
                q.mAccountStates) c)) := by
  constructor
  · intro hgt
    unfold removeAppliedOne
    rw [hacct]
    simp only [htxs]
    rw [if_neg (not_le.mpr hgt)]
  · intro hle
    obtain ⟨d, hfd, hdtake, hddrop⟩ :
        ∃ d : Nat,
          (match findBySeq M (t :: ts) with
            | none => (t :: ts).length
            | some i => if i ≠ (t :: ts).length then i + 1 else i) = d
          ∧ (t :: ts).filter (fun v => decide (v.seqNum ≤ M)) = (t :: ts).take d
          ∧ (t :: ts).filter (fun v => decide (M < v.seqNum)) = (t :: ts).drop d := by
      have hlast : ((t :: ts).getLastD t).seqNum = t.seqNum + ts.length := by
        rw [getLastD_cons_get]
        have := hcontig ts.length (by simp)
        simpa using this
      by_cases hB1 : M ≤ t.seqNum + ts.length
      · refine ⟨(M - t.seqNum).toNat + 1, ?_, ?_, ?_⟩
        · have hfind : findBySeq M (t :: ts) = some (M - t.seqNum).toNat := by
            simp only [findBySeq]
            rw [if_neg]
            rw [hlast]
            push_neg
            constructor <;> omega
          rw [hfind]
          dsimp only
          have hne2 : (M - t.seqNum).toNat ≠ (t :: ts).length := by
            simp only [List.length_cons]
            omega
          rw [if_pos hne2]
        · exact (filter_contig (t :: ts) t.seqNum M hcontig hle).1
        · exact (filter_contig (t :: ts) t.seqNum M hcontig hle).2
      · have hall : ∀ v ∈ t :: ts, v.seqNum ≤ M := by
          intro v hv
          obtain ⟨⟨jv, hjv⟩, hget⟩ := List.mem_iff_get.mp hv
          rw [← hget, hcontig jv hjv]
          simp only [List.length_cons] at hjv
          omega
        refine ⟨(t :: ts).length, ?_, ?_, ?_⟩
        · by_cases hB2 : M = t.seqNum + ts.length + 1
          · have hfind : findBySeq M (t :: ts) = some (t :: ts).length := by
              simp only [findBySeq]
              rw [if_neg]
              · congr 1
                simp only [List.length_cons]
                omega
              · rw [hlast]
                push_neg
                constructor <;> omega
            rw [hfind]
            simp
          · have hfind : findBySeq M (t :: ts) = none := by
              simp only [findBySeq]
              rw [if_pos]
              rw [hlast]
              right
              omega
            rw [hfind]
        · rw [List.filter_eq_self.mpr, List.take_length]
          intro v hv
          simpa using hall v hv
        · rw [List.drop_length, List.filter_eq_nil_iff.mpr]
          intro v hv
          simpa using hall v hv
    have hred : removeAppliedOne q b M =
        dropTransactions
          { q with
            mAccountStates := updateAcct q.mAccountStates b (fun s2 => { s2 with mAge := 0 }),
            mSizeByAge := adjustAt (adjustAt q.mSizeByAge s.mAge (-(((t :: ts).length : Nat) : Int))) 0 ((((t :: ts).length : Nat) : Int) - (d : Int)) }
          b 0 d := by
      unfold removeAppliedOne
      rw [hacct]
      simp only [htxs]
      rw [if_pos hle]
      rw [hfd]
    rw [hred]
    have hacct3 : findAcct (updateAcct q.mAccountStates b
        (fun s2 => { s2 with mAge := 0 })) b = some { s with mAge := 0 } := by
      rw [findAcct_updateAcct_self, hacct]
      rfl
    obtain ⟨d1, d2, d3, d4, d5, d6, d7⟩ := dropTransactions_run
      { q with
        mAccountStates := updateAcct q.mAccountStates b (fun s2 => { s2 with mAge := 0 }),
        mSizeByAge := adjustAt (adjustAt q.mSizeByAge s.mAge (-(((t :: ts).length : Nat) : Int))) 0 ((((t :: ts).length : Nat) : Int) - (d : Int)) }
      b { s with mAge := 0 } t ts d
      (by simpa only [keys_updateAcct] using hnd)
      hacct3 (by simpa using htxs)
    have hcommQ : ((t :: ts).take d).foldl releaseAcct (updateAcct q.mAccountStates b (fun s2 => { s2 with mAge := 0 })) = updateAcct (((t :: ts).take d).foldl releaseAcct q.mAccountStates) b (fun s2 => { s2 with mAge := 0 }) :=
      relRun_updateAcct _ _ _ _ hnd (fun _ => rfl) (fun _ => rfl) (fun _ _ => rfl)
    refine ⟨d1, d3, ?_, d5, ?_, ?_⟩
    · rw [hdtake]
      exact d4
    · rw [hdtake, hddrop, d6]
      by_cases h0 : (t :: ts).drop d = []
      · simp [h0]
      · simp [h0]
    · intro c hc
      rw [d7 c hc, hdtake]
      rw [hcommQ, findAcct_updateAcct_ne _ _ _ _ hc]

theorem opsSum_append (L1 L2 : List Tx) :
    opsSum (L1 ++ L2) = opsSum L1 + opsSum L2 := by
  simp [opsSum]

theorem removeDroppedOf_cons (q : TxQueue) (kv : Nat × Int)
    (KM : List (Nat × Int)) :
    removeDroppedOf q (kv :: KM) = droppedAt q kv ++ removeDroppedOf q KM := by
  simp [removeDroppedOf]

theorem droppedAt_absent (q : TxQueue) (kv : Nat × Int)
    (h : findAcct q.mAccountStates kv.1 = none) : droppedAt q kv = [] := by
  unfold droppedAt
  rw [h]

theorem droppedAt_empty (q : TxQueue) (kv : Nat × Int) (sb : AccountState)
    (h : findAcct q.mAccountStates kv.1 = some sb)
    (ht : sb.mTransactions = []) : droppedAt q kv = [] := by
  unfold droppedAt
  rw [h]
  dsimp only
  rw [ht]

theorem droppedAt_head_gt (q : TxQueue) (kv : Nat × Int) (sb : AccountState)
    (t : Tx) (ts : List Tx)
    (h : findAcct q.mAccountStates kv.1 = some sb)
    (ht : sb.mTransactions = t :: ts) (hgt : kv.2 < t.seqNum) :
    droppedAt q kv = [] := by
  unfold droppedAt
  rw [h]
  dsimp only
  rw [ht]
  dsimp only
  rw [if_neg (not_le.mpr hgt)]

theorem droppedAt_drop (q : TxQueue) (kv : Nat × Int) (sb : AccountState)
    (t : Tx) (ts : List Tx)
    (h : findAcct q.mAccountStates kv.1 = some sb)
    (ht : sb.mTransactions = t :: ts) (hle : t.seqNum ≤ kv.2) :
    droppedAt q kv = (t :: ts).filter (fun v => decide (v.seqNum ≤ kv.2)) := by
  unfold droppedAt
  rw [h]
  dsimp only
  rw [ht]
  dsimp only
  rw [if_pos hle]

theorem droppedAt_afterRel (q' q : TxQueue) (kv : Nat × Int) (r : Int)
    (hrel : findAcct q'.mAccountStates kv.1 =
      afterRel (findAcct q.mAccountStates kv.1) r) :
    droppedAt q' kv = droppedAt q kv := by
  cases h : findAcct q.mAccountStates kv.1 with
  | none =>
    rw [h] at hrel
    have h2 : findAcct q'.mAccountStates kv.1 = none := hrel
    rw [droppedAt_absent q' kv h2, droppedAt_absent q kv h]
  | some sc =>
    rw [h] at hrel
    simp only [afterRel] at hrel
    by_cases hcond : sc.mTransactions = [] ∧ sc.mTotalFees - r = 0 ∧
        sc.mTotalFees ≠ 0
    · rw [if_pos hcond] at hrel
      rw [droppedAt_absent q' kv hrel, droppedAt_empty q kv sc h hcond.1]
    · rw [if_neg hcond] at hrel
      cases hTX : sc.mTransactions with
      | nil =>
        rw [droppedAt_empty q kv sc h hTX,
          droppedAt_empty q' kv _ hrel (by simpa using hTX)]
      | cons t2 ts2 =>
        by_cases hM : t2.seqNum ≤ kv.2
        · rw [droppedAt_drop q kv sc t2 ts2 h hTX hM,
            droppedAt_drop q' kv _ t2 ts2 hrel (by simpa using hTX) hM]
        · rw [droppedAt_head_gt q kv sc t2 ts2 h hTX (not_le.mp hM),
            droppedAt_head_gt q' kv _ t2 ts2 hrel (by simpa using hTX)
              (not_le.mp hM)]

theorem removeDroppedOf_congr (q' q : TxQueue) (KM : List (Nat × Int))
    (h : ∀ kv ∈ KM, droppedAt q' kv = droppedAt q kv) :
    removeDroppedOf q' KM = removeDroppedOf q KM := by
  induction KM with
  | nil => rfl
  | cons kv K2 ih =>
    rw [removeDroppedOf_cons, removeDroppedOf_cons, h kv (by simp),
      ih (fun kv2 hk => h kv2 (by simp [hk]))]

/-- The per-account loop of `removeApplied` (TransactionQueue.cpp:303-353)
over the `seqByAccount` suffix `KM`, characterised on the current state:
the ban ring is untouched, the global op counter drops by all dropped ops,
bystander accounts lose exactly the reserve the drops release into them,
and each visited account with a non-empty queue keeps exactly its
transactions above the applied maximum. -/
theorem removeAppliedFoldRun (KM : List (Nat × Int)) (qc : TxQueue)
    (hnd : (qc.mAccountStates.map Prod.fst).Nodup)
    (hK : (KM.map Prod.fst).Nodup)
    (hcontig : ∀ b ∈ KM.map Prod.fst, ∀ sb,
      findAcct qc.mAccountStates b = some sb → ∀ t2 ts2,
      sb.mTransactions = t2 :: ts2 → ∀ j (hj : j < (t2 :: ts2).length),
      ((t2 :: ts2).get ⟨j, hj⟩).seqNum = t2.seqNum + j)
    (hef : ∀ c sc, findAcct qc.mAccountStates c = some sc →
      sc.mTransactions = [] → sc.mTotalFees ≠ 0)
    (hnn : ∀ v ∈ removeDroppedOf qc KM, 0 ≤ v.feeBid)
    (hback : ∀ c sc, findAcct qc.mAccountStates c = some sc →
      feeToward c (removeDroppedOf qc KM) ≤ sc.mTotalFees) :
    (KM.foldl (fun st kv => removeAppliedOne st kv.1 kv.2) qc).mBannedTransactions =
        qc.mBannedTransactions
    ∧ (KM.foldl (fun st kv => removeAppliedOne st kv.1 kv.2) qc).mQueueSizeOps =
        qc.mQueueSizeOps - opsSum (removeDroppedOf qc KM)
    ∧ (∀ c, c ∉ KM.map Prod.fst →
        findAcct (KM.foldl (fun st kv =>
          removeAppliedOne st kv.1 kv.2) qc).mAccountStates c =
          afterRel (findAcct qc.mAccountStates c)
            (feeToward c (removeDroppedOf qc KM)))
    ∧ (∀ b M, (b, M) ∈ KM → ∀ sb t2 ts2,
        findAcct qc.mAccountStates b = some sb →
        sb.mTransactions = t2 :: ts2 →
        (M < t2.seqNum →
          findAcct (KM.foldl (fun st kv =>
            removeAppliedOne st kv.1 kv.2) qc).mAccountStates b =
            some ⟨t2 :: ts2,
              sb.mTotalFees - feeToward b (removeDroppedOf qc KM),
              sb.mQueueSizeOps, sb.mAge⟩)
        ∧ (t2.seqNum ≤ M →
          findAcct (KM.foldl (fun st kv =>
            removeAppliedOne st kv.1 kv.2) qc).mAccountStates b =
            (if (t2 :: ts2).filter (fun v => decide (M < v.seqNum)) = [] ∧
                sb.mTotalFees - feeToward b (removeDroppedOf qc KM) = 0
              then none
              else some ⟨(t2 :: ts2).filter (fun v => decide (M < v.seqNum)),
                sb.mTotalFees - feeToward b (removeDroppedOf qc KM),
                sb.mQueueSizeOps -
                  opsSum ((t2 :: ts2).filter (fun v => decide (v.seqNum ≤ M))),
                0⟩))) := by
  induction KM generalizing qc with
  | nil =>
    refine ⟨rfl, by simp [removeDroppedOf, opsSum], ?_, ?_⟩
    · intro c _
      rw [show removeDroppedOf qc [] = [] from rfl, feeToward_nil, afterRel_zero]
      rfl
    · intro b M hm
      exact absurd hm (List.not_mem_nil _)
  | cons kv KM2 ih =>
    obtain ⟨b, M⟩ := kv
    have hbK2 : b ∉ KM2.map Prod.fst := by
      have := (List.nodup_cons.mp hK).1
      simpa using this
    have hK2 : (KM2.map Prod.fst).Nodup := by
      have := (List.nodup_cons.mp hK).2
      simpa using this
    rw [List.foldl_cons]
    cases hfb : findAcct qc.mAccountStates b with
    | none =>
      have hid : removeAppliedOne qc b M = qc := by
        unfold removeAppliedOne
        rw [hfb]
      have hd0 : droppedAt qc (b, M) = [] := droppedAt_absent qc (b, M) hfb
      have hD : removeDroppedOf qc ((b, M) :: KM2) = removeDroppedOf qc KM2 := by
        rw [removeDroppedOf_cons, hd0]
        rfl
      rw [hid, hD]
      obtain ⟨i1, i2, i3, i4⟩ := ih qc hnd hK2
        (fun b2 hb2 => hcontig b2 (by simp [hb2]))
        hef
        (fun v hv => hnn v (by rw [hD]; exact hv))
        (fun c sc hsc => by
          have h3 := hback c sc hsc
          rwa [hD] at h3)
      refine ⟨i1, i2, ?_, ?_⟩
      · intro c hc
        exact i3 c (fun hcc => hc (by simp [hcc]))
      · intro b2 M2 hm sb2 t2 ts2 hsb2 htx2
        rcases List.mem_cons.mp hm with h1 | h2
        · exfalso
          have hb2 : b2 = b := congrArg Prod.fst h1
          rw [hb2, hfb] at hsb2
          cases hsb2
        · exact i4 b2 M2 h2 sb2 t2 ts2 hsb2 htx2
    | some sb =>
      cases hTX0 : sb.mTransactions with
      | nil =>
        have hid : removeAppliedOne qc b M = qc := by
          unfold removeAppliedOne
          rw [hfb]
          dsimp only
          rw [hTX0]
        have hd0 : droppedAt qc (b, M) = [] :=
          droppedAt_empty qc (b, M) sb hfb hTX0
        have hD : removeDroppedOf qc ((b, M) :: KM2) =
            removeDroppedOf qc KM2 := by
          rw [removeDroppedOf_cons, hd0]
          rfl
        rw [hid, hD]
        obtain ⟨i1, i2, i3, i4⟩ := ih qc hnd hK2
          (fun b2 hb2 => hcontig b2 (by simp [hb2]))
          hef
          (fun v hv => hnn v (by rw [hD]; exact hv))
          (fun c sc hsc => by
            have h3 := hback c sc hsc
            rwa [hD] at h3)
        refine ⟨i1, i2, ?_, ?_⟩
        · intro c hc
          exact i3 c (fun hcc => hc (by simp [hcc]))
        · intro b2 M2 hm sb2 t2 ts2 hsb2 htx2
          rcases List.mem_cons.mp hm with h1 | h2
          · exfalso
            have hb2 : b2 = b := congrArg Prod.fst h1
            rw [hb2, hfb] at hsb2
            have hsbeq : sb = sb2 := Option.some_inj.mp hsb2
            rw [← hsbeq, hTX0] at htx2
            cases htx2
          · exact i4 b2 M2 h2 sb2 t2 ts2 hsb2 htx2
      | cons t ts =>
        have hcontigb := hcontig b (by simp) sb hfb t ts hTX0
        obtain ⟨hone1, hone2⟩ :=
          removeAppliedOne_run qc b M sb t ts hnd hfb hTX0 hcontigb
        by_cases hMlt : M < t.seqNum
        · -- the head is already beyond the applied maximum: identity step
          have hid : removeAppliedOne qc b M = qc := hone1 hMlt
          have hd0 : droppedAt qc (b, M) = [] :=
            droppedAt_head_gt qc (b, M) sb t ts hfb hTX0 hMlt
          have hD : removeDroppedOf qc ((b, M) :: KM2) =
              removeDroppedOf qc KM2 := by
            rw [removeDroppedOf_cons, hd0]
            rfl
          rw [hid, hD]
          obtain ⟨i1, i2, i3, i4⟩ := ih qc hnd hK2
            (fun b2 hb2 => hcontig b2 (by simp [hb2]))
            hef
            (fun v hv => hnn v (by rw [hD]; exact hv))
            (fun c sc hsc => by
              have h3 := hback c sc hsc
              rwa [hD] at h3)
          refine ⟨i1, i2, ?_, ?_⟩
          · intro c hc
            exact i3 c (fun hcc => hc (by simp [hcc]))
          · intro b2 M2 hm sb2 t2 ts2 hsb2 htx2
            rcases List.mem_cons.mp hm with h1 | h2
            · rw [Prod.mk.injEq] at h1
              obtain ⟨hb2, hM2⟩ := h1
              subst hb2
              subst hM2
              rw [hfb] at hsb2
              have hsbeq : sb = sb2 := Option.some_inj.mp hsb2
              rw [← hsbeq] at htx2 ⊢
              have hcons : t :: ts = t2 :: ts2 := by
                rw [← hTX0]
                exact htx2
              injection hcons with he1 he2
              constructor
              · intro _
                rw [i3 b2 hbK2, hfb]
                simp only [afterRel]
                rw [if_neg (fun hc => by
                  rw [htx2] at hc
                  exact absurd hc.1 (List.cons_ne_nil _ _))]
                rw [← htx2]
              · intro hle2
                exfalso
                rw [he1] at hMlt
                omega
            · exact i4 b2 M2 h2 sb2 t2 ts2 hsb2 htx2
        · -- drop the applied prefix of this account's queue
          have hle : t.seqNum ≤ M := not_lt.mp hMlt
          obtain ⟨r1, r2, r3, r4, r5, r6⟩ := hone2 hle
          have hdr : droppedAt qc (b, M) =
              (t :: ts).filter (fun v => decide (v.seqNum ≤ M)) :=
            droppedAt_drop qc (b, M) sb t ts hfb hTX0 hle
          have hDdec : removeDroppedOf qc ((b, M) :: KM2) =
              (t :: ts).filter (fun v => decide (v.seqNum ≤ M)) ++
                removeDroppedOf qc KM2 := by
            rw [removeDroppedOf_cons, hdr]
          have hmemL : ∀ v ∈ (t :: ts).filter (fun v => decide (v.seqNum ≤ M)),
              v ∈ removeDroppedOf qc ((b, M) :: KM2) := by
            intro v hv
            rw [hDdec]
            exact List.mem_append_left _ hv
          have hmemR : ∀ v ∈ removeDroppedOf qc KM2,
              v ∈ removeDroppedOf qc ((b, M) :: KM2) := by
            intro v hv
            rw [hDdec]
            exact List.mem_append_right _ hv
          have hnnD2 : ∀ c, 0 ≤ feeToward c (removeDroppedOf qc KM2) :=
            fun c => feeToward_nonneg _ _ (fun v hv _ => hnn v (hmemR v hv))
          have hsplit : ∀ c sc, findAcct qc.mAccountStates c = some sc →
              feeToward c ((t :: ts).filter (fun v => decide (v.seqNum ≤ M))) +
                feeToward c (removeDroppedOf qc KM2) ≤ sc.mTotalFees := by
            intro c sc hsc
            have h3 := hback c sc hsc
            rwa [hDdec, feeToward_append] at h3
          have hrelc : ∀ c, c ≠ b →
              findAcct (removeAppliedOne qc b M).mAccountStates c =
                afterRel (findAcct qc.mAccountStates c)
                  (feeToward c ((t :: ts).filter
                    (fun v => decide (v.seqNum ≤ M)))) := by
            intro c hc
            rw [r6 c hc]
            exact relRun_afterRel _ qc.mAccountStates c hnd
              (fun v hv _ => hnn v (hmemL v hv))
              (fun sc hsc => by
                have h3 := hsplit c sc hsc
                have h4 := hnnD2 c
                omega)
              (fun sc hsc => hef c sc hsc)
          have hcD : removeDroppedOf (removeAppliedOne qc b M) KM2 =
              removeDroppedOf qc KM2 := by
            apply removeDroppedOf_congr
            intro kv2 hkv2
            have hkb : kv2.1 ≠ b :=
              fun hcc => hbK2 (hcc ▸ List.mem_map_of_mem Prod.fst hkv2)
            exact droppedAt_afterRel _ qc kv2 _ (hrelc kv2.1 hkb)
          have hcontigB : ∀ b2 ∈ KM2.map Prod.fst, ∀ sb2,
              findAcct (removeAppliedOne qc b M).mAccountStates b2 = some sb2 →
              ∀ t2 ts2, sb2.mTransactions = t2 :: ts2 →
              ∀ j (hj : j < (t2 :: ts2).length),
              ((t2 :: ts2).get ⟨j, hj⟩).seqNum = t2.seqNum + j := by
            intro b2 hb2 sb2 hsb2 t2 ts2 htx2 j hj
            have hb2b : b2 ≠ b := fun hcc => hbK2 (hcc ▸ hb2)
            rw [hrelc b2 hb2b] at hsb2
            obtain ⟨sc0, hsc0, hval, -⟩ := afterRel_some_inv _ _ _ hsb2
            have htx0 : sc0.mTransactions = t2 :: ts2 := by
              rw [hval] at htx2
              exact htx2
            exact hcontig b2 (by simp [hb2]) sc0 hsc0 t2 ts2 htx0 j hj
          have hefB : ∀ c sc,
              findAcct (removeAppliedOne qc b M).mAccountStates c = some sc →
              sc.mTransactions = [] → sc.mTotalFees ≠ 0 := by
            intro c sc hsc hte
            by_cases hcb : c = b
            · subst hcb
              rw [r5] at hsc
              by_cases hz : (t :: ts).filter (fun v => decide (M < v.seqNum)) =
                  [] ∧ sb.mTotalFees - feeToward c ((t :: ts).filter
                    (fun v => decide (v.seqNum ≤ M))) = 0
              · rw [if_pos hz] at hsc
                cases hsc
              · rw [if_neg hz] at hsc
                have hval : sc = ⟨(t :: ts).filter
                    (fun v => decide (M < v.seqNum)),
                    sb.mTotalFees - feeToward c ((t :: ts).filter
                      (fun v => decide (v.seqNum ≤ M))),
                    sb.mQueueSizeOps - opsSum ((t :: ts).filter
                      (fun v => decide (v.seqNum ≤ M))), 0⟩ :=
                  (Option.some_inj.mp hsc).symm
                rw [hval] at hte ⊢
                dsimp only at hte ⊢
                intro hzz
                exact hz ⟨hte, hzz⟩
            · rw [hrelc c hcb] at hsc
              obtain ⟨sc0, hsc0, hval, himp⟩ := afterRel_some_inv _ _ _ hsc
              have hte0 : sc0.mTransactions = [] := by
                rw [hval] at hte
                exact hte
              rw [hval]
              exact himp hte0 (hef c sc0 hsc0 hte0)
          have hnnB : ∀ v ∈ removeDroppedOf (removeAppliedOne qc b M) KM2,
              0 ≤ v.feeBid := by
            intro v hv
            rw [hcD] at hv
            exact hnn v (hmemR v hv)
          have hbackB : ∀ c sc,
              findAcct (removeAppliedOne qc b M).mAccountStates c = some sc →
              feeToward c (removeDroppedOf (removeAppliedOne qc b M) KM2) ≤
                sc.mTotalFees := by
            intro c sc hsc
            rw [hcD]
            by_cases hcb : c = b
            · subst hcb
              rw [r5] at hsc
              by_cases hz : (t :: ts).filter (fun v => decide (M < v.seqNum)) =
                  [] ∧ sb.mTotalFees - feeToward c ((t :: ts).filter
                    (fun v => decide (v.seqNum ≤ M))) = 0
              · rw [if_pos hz] at hsc
                cases hsc
              · rw [if_neg hz] at hsc
                have hval : sc = ⟨(t :: ts).filter
                    (fun v => decide (M < v.seqNum)),
                    sb.mTotalFees - feeToward c ((t :: ts).filter
                      (fun v => decide (v.seqNum ≤ M))),
                    sb.mQueueSizeOps - opsSum ((t :: ts).filter
                      (fun v => decide (v.seqNum ≤ M))), 0⟩ :=
                  (Option.some_inj.mp hsc).symm
                rw [hval]
                have h3 := hsplit c sb hfb
                dsimp only
                omega
            · rw [hrelc c hcb] at hsc
              obtain ⟨sc0, hsc0, hval, -⟩ := afterRel_some_inv _ _ _ hsc
              rw [hval]
              have h3 := hsplit c sc0 hsc0
              dsimp only
              omega
          obtain ⟨i1, i2, i3, i4⟩ :=
            ih (removeAppliedOne qc b M) r4 hK2 hcontigB hefB hnnB hbackB
          refine ⟨?_, ?_, ?_, ?_⟩
          · rw [i1, r1]
          · rw [i2, hcD, r3, hDdec, opsSum_append]
            ring
          · intro c hc
            have hcb : c ≠ b := fun hcc => hc (by simp [hcc])
            have hcK2 : c ∉ KM2.map Prod.fst := fun hcc => hc (by simp [hcc])
            rw [i3 c hcK2, hcD, hrelc c hcb]
            rw [afterRel_afterRel _ _ _ (hnnD2 c)
              (fun sc hsc => hsplit c sc hsc)
              (fun sc hsc => hef c sc hsc)]
            rw [hDdec, feeToward_append]
          · intro b2 M2 hm sb2 t2 ts2 hsb2 htx2
            rcases List.mem_cons.mp hm with h1 | h2
            · rw [Prod.mk.injEq] at h1
              obtain ⟨hb2, hM2⟩ := h1
              rw [hb2] at hsb2
              rw [hb2, hM2]
              rw [hfb] at hsb2
              have hsbeq : sb = sb2 := Option.some_inj.mp hsb2
              rw [← hsbeq] at htx2 ⊢
              have hcons : t :: ts = t2 :: ts2 := by
                rw [← hTX0]
                exact htx2
              injection hcons with he1 he2
              rw [← he1, ← he2]
              constructor
              · intro hMgt
                exact absurd hMgt (not_lt.mpr hle)
              · intro _
                rw [i3 b hbK2, hcD, r5, hDdec, feeToward_append]
                have h4 := hnnD2 b
                have h5 := hsplit b sb hfb
                have harith : sb.mTotalFees -
                    (feeToward b ((t :: ts).filter
                      (fun v => decide (v.seqNum ≤ M))) +
                     feeToward b (removeDroppedOf qc KM2)) =
                    sb.mTotalFees - feeToward b ((t :: ts).filter
                      (fun v => decide (v.seqNum ≤ M))) -
                     feeToward b (removeDroppedOf qc KM2) := by ring
                rw [harith]
                by_cases hz1 : (t :: ts).filter (fun v => decide (M < v.seqNum))
                    = []
                · by_cases hz2 : sb.mTotalFees - feeToward b ((t :: ts).filter
                      (fun v => decide (v.seqNum ≤ M))) = 0
                  · rw [if_pos ⟨hz1, hz2⟩]
                    rw [if_pos ⟨hz1, by omega⟩]
                    rfl
                  · rw [if_neg (fun hc => hz2 hc.2)]
                    simp only [afterRel]
                    by_cases hz3 : sb.mTotalFees - feeToward b
                        ((t :: ts).filter (fun v => decide (v.seqNum ≤ M))) -
                        feeToward b (removeDroppedOf qc KM2) = 0
                    · rw [if_pos ⟨hz1, hz3, hz2⟩, if_pos ⟨hz1, hz3⟩]
                    · rw [if_neg (fun hc => hz3 hc.2.1),
                        if_neg (fun hc => hz3 hc.2)]
                · rw [if_neg (fun hc => hz1 hc.1)]
                  simp only [afterRel]
                  rw [if_neg (fun hc => hz1 hc.1),
                    if_neg (fun hc => hz1 hc.1)]
            · have hb2b : b2 ≠ b :=
                fun hcc => hbK2 (hcc ▸ List.mem_map_of_mem Prod.fst h2)
              have hstep2 : findAcct (removeAppliedOne qc b M).mAccountStates b2 = some { sb2 with mTotalFees := sb2.mTotalFees - feeToward b2 ((t :: ts).filter (fun v => decide (v.seqNum ≤ M))) } := by
                rw [hrelc b2 hb2b, hsb2]
                simp only [afterRel]
                rw [if_neg (fun hc => by
                  rw [htx2] at hc
                  exact absurd hc.1 (List.cons_ne_nil _ _))]
              obtain ⟨j1, j2⟩ := i4 b2 M2 h2 _ t2 ts2 hstep2
                (by simpa using htx2)
              have harith : ∀ x : Int, sb2.mTotalFees -
                  feeToward b2 ((t :: ts).filter
                    (fun v => decide (v.seqNum ≤ M))) - x =
                  sb2.mTotalFees - (feeToward b2 ((t :: ts).filter
                    (fun v => decide (v.seqNum ≤ M))) + x) := by
                intro x
                ring
              constructor
              · intro hMgt
                have hj := j1 hMgt
                rw [hcD] at hj
                rw [hj, hDdec, feeToward_append]
                dsimp only
                rw [harith]
              · intro hle2
                have hj := j2 hle2
                rw [hcD] at hj
                rw [hj, hDdec, feeToward_append]
                dsimp only
                rw [harith]


/-! ### The `seqByAccount` map: sortedness and per-account maxima -/

theorem maxAppliedSeq_nil (a : Nat) : maxAppliedSeq [] a = 0 := rfl

theorem maxAppliedSeq_cons (u : Tx) (L : List Tx) (a : Nat) :
    maxAppliedSeq (u :: L) a =
      L.foldl (fun acc v => if v.sourceID = a then max acc v.seqNum else acc)
        (if u.sourceID = a then max 0 u.seqNum else 0) := rfl

theorem lookupSeq_eq_none (m : List (Nat × Int)) (k : Nat)
    (h : k ∉ m.map Prod.fst) : lookupSeq m k = none := by
  induction m with
  | nil => rfl
  | cons kv rest ih =>
    obtain ⟨b, v⟩ := kv
    have hb : b ≠ k := fun hc => h (by simp [hc])
    show (if b = k then some v else lookupSeq rest k) = none
    rw [if_neg hb]
    exact ih (fun hc => h (by simp [hc]))

theorem lookupSeq_mem (m : List (Nat × Int)) (k : Nat) (v : Int)
    (h : lookupSeq m k = some v) : (k, v) ∈ m := by
  induction m with
  | nil => cases h
  | cons kv rest ih =>
    obtain ⟨b, w⟩ := kv
    have h2 : (if b = k then some w else lookupSeq rest k) = some v := h
    by_cases hb : b = k
    · rw [if_pos hb] at h2
      have hv : w = v := Option.some_inj.mp h2
      rw [← hb, ← hv]
      exact List.mem_cons_self _ _
    · rw [if_neg hb] at h2
      exact List.mem_cons_of_mem _ (ih h2)

theorem insSeq_keys_mem (m : List (Nat × Int)) (src : Nat) (sq : Int) :
    ∀ k ∈ (insSeq m src sq).map Prod.fst, k = src ∨ k ∈ m.map Prod.fst := by
  induction m generalizing sq with
  | nil =>
    intro k hk
    simp only [insSeq, List.map_cons, List.map_nil, List.mem_singleton] at hk
    exact Or.inl hk
  | cons kv rest ih =>
    obtain ⟨b, v⟩ := kv
    intro k hk
    simp only [insSeq] at hk
    by_cases h1 : src < b
    · rw [if_pos h1] at hk
      simp only [List.map_cons, List.mem_cons] at hk
      rcases hk with h | h | h
      · exact Or.inl h
      · exact Or.inr (by simp [h])
      · exact Or.inr (by simp [h])
    · rw [if_neg h1] at hk
      by_cases h2 : src = b
      · rw [if_pos h2] at hk
        simp only [List.map_cons, List.mem_cons] at hk
        rcases hk with h | h
        · exact Or.inr (by simp [h])
        · exact Or.inr (by simp [h])
      · rw [if_neg h2] at hk
        simp only [List.map_cons, List.mem_cons] at hk
        rcases hk with h | h
        · exact Or.inr (by simp [h])
        · rcases ih sq k h with h3 | h3
          · exact Or.inl h3
          · exact Or.inr (by simp [h3])

theorem insSeq_keys_sorted (m : List (Nat × Int)) (src : Nat) (sq : Int)
    (hm : (m.map Prod.fst).Pairwise (fun x y => x < y)) :
    ((insSeq m src sq).map Prod.fst).Pairwise (fun x y => x < y) := by
  induction m generalizing sq with
  | nil => simp [insSeq]
  | cons kv rest ih =>
    obtain ⟨b, v⟩ := kv
    simp only [List.map_cons, List.pairwise_cons] at hm
    obtain ⟨hb, hrest⟩ := hm
    simp only [insSeq]
    by_cases h1 : src < b
    · rw [if_pos h1]
      simp only [List.map_cons, List.pairwise_cons]
      refine ⟨?_, hb, hrest⟩
      intro y hy
      simp only [List.mem_cons] at hy
      rcases hy with h | h
      · rw [h]
        exact h1
      · exact lt_trans h1 (hb y h)
    · rw [if_neg h1]
      by_cases h2 : src = b
      · rw [if_pos h2]
        simp only [List.map_cons, List.pairwise_cons]
        exact ⟨hb, hrest⟩
      · rw [if_neg h2]
        simp only [List.map_cons, List.pairwise_cons]
        refine ⟨?_, ih sq hrest⟩
        intro y hy
        rcases insSeq_keys_mem rest src sq y hy with h | h
        · rw [h]
          omega
        · exact hb y h

theorem lookupSeq_insSeq_self (m : List (Nat × Int)) (src : Nat) (sq : Int)
    (hm : (m.map Prod.fst).Pairwise (fun x y => x < y)) :
    lookupSeq (insSeq m src sq) src =
      some (max ((lookupSeq m src).getD 0) sq) := by
  induction m generalizing sq with
  | nil =>
    show (if src = src then some (max 0 sq) else none) = _
    rw [if_pos rfl]
    rfl
  | cons kv rest ih =>
    obtain ⟨b, v⟩ := kv
    simp only [List.map_cons, List.pairwise_cons] at hm
    obtain ⟨hb, hrest⟩ := hm
    simp only [insSeq]
    by_cases h1 : src < b
    · rw [if_pos h1]
      show (if src = src then some (max 0 sq) else _) = _
      rw [if_pos rfl]
      have hnb : b ≠ src := fun hc => by omega
      have hnone : lookupSeq ((b, v) :: rest) src = none := by
        show (if b = src then some v else lookupSeq rest src) = none
        rw [if_neg hnb]
        exact lookupSeq_eq_none rest src (fun hc => by
          have := hb src hc
          omega)
      rw [hnone]
      rfl
    · rw [if_neg h1]
      by_cases h2 : src = b
      · rw [if_pos h2]
        show (if b = src then some (max v sq) else _) = _
        rw [if_pos h2.symm]
        have hsome : lookupSeq ((b, v) :: rest) src = some v := by
          show (if b = src then some v else lookupSeq rest src) = some v
          rw [if_pos h2.symm]
        rw [hsome]
        rfl
      · rw [if_neg h2]
        have hnb : b ≠ src := fun hc => h2 hc.symm
        show (if b = src then some v else lookupSeq (insSeq rest src sq) src) = _
        rw [if_neg hnb]
        have hskip : lookupSeq ((b, v) :: rest) src = lookupSeq rest src := by
          show (if b = src then some v else lookupSeq rest src) = _
          rw [if_neg hnb]
        rw [hskip]
        exact ih sq hrest

theorem lookupSeq_insSeq_other (m : List (Nat × Int)) (src : Nat) (sq : Int)
    (k : Nat) (hk : k ≠ src) :
    lookupSeq (insSeq m src sq) k = lookupSeq m k := by
  induction m generalizing sq with
  | nil =>
    show (if src = k then some (max 0 sq) else none) = none
    rw [if_neg (fun hc => hk hc.symm)]
  | cons kv rest ih =>
    obtain ⟨b, v⟩ := kv
    simp only [insSeq]
    by_cases h1 : src < b
    · rw [if_pos h1]
      show (if src = k then _ else lookupSeq ((b, v) :: rest) k) = _
      rw [if_neg (fun hc => hk hc.symm)]
    · rw [if_neg h1]
      by_cases h2 : src = b
      · rw [if_pos h2]
        show (if b = k then some (max v sq) else lookupSeq rest k) = _
        show _ = (if b = k then some v else lookupSeq rest k)
        have hbk : b ≠ k := fun hc => hk (by rw [← hc, h2])
        rw [if_neg hbk, if_neg hbk]
      · rw [if_neg h2]
        show (if b = k then some v else lookupSeq (insSeq rest src sq) k) =
          (if b = k then some v else lookupSeq rest k)
        by_cases hbk : b = k
        · rw [if_pos hbk, if_pos hbk]
        · rw [if_neg hbk, if_neg hbk]
          exact ih sq

theorem buildSeqAux_sorted (L : List Tx) (m : List (Nat × Int))
    (hm : (m.map Prod.fst).Pairwise (fun x y => x < y)) :
    (((L.foldl (fun m2 tx => insSeq m2 tx.sourceID tx.seqNum) m).map
      Prod.fst)).Pairwise (fun x y => x < y) := by
  induction L generalizing m with
  | nil => exact hm
  | cons u L2 ih =>
    rw [List.foldl_cons]
    exact ih _ (insSeq_keys_sorted m u.sourceID u.seqNum hm)

theorem buildSeqByAccount_keys_sorted (applied : List Tx) :
    ((buildSeqByAccount applied).map Prod.fst).Pairwise (fun x y => x < y) :=
  buildSeqAux_sorted applied [] (by simp)

theorem buildSeqByAccount_keys_nodup (applied : List Tx) :
    ((buildSeqByAccount applied).map Prod.fst).Nodup :=
  List.Pairwise.imp (fun h => Nat.ne_of_lt h)
    (buildSeqByAccount_keys_sorted applied)

theorem buildSeqAux_lookup (L : List Tx) (m : List (Nat × Int))
    (hm : (m.map Prod.fst).Pairwise (fun x y => x < y)) (a : Nat) :
    lookupSeq (L.foldl (fun m2 tx => insSeq m2 tx.sourceID tx.seqNum) m) a =
      (match lookupSeq m a with
       | some v => some (L.foldl
          (fun acc u => if u.sourceID = a then max acc u.seqNum else acc) v)
       | none =>
          if L.any (fun u => decide (u.sourceID = a)) then
            some (L.foldl
              (fun acc u => if u.sourceID = a then max acc u.seqNum else acc) 0)
          else none) := by
  induction L generalizing m with
  | nil =>
    cases h : lookupSeq m a with
    | none => simp [h]
    | some v => simp [h]
  | cons u L2 ih =>
    rw [List.foldl_cons]
    have hm2 := insSeq_keys_sorted m u.sourceID u.seqNum hm
    rw [ih _ hm2]
    by_cases hsrc : u.sourceID = a
    · rw [← hsrc] at *
      rw [lookupSeq_insSeq_self m u.sourceID u.seqNum hm]
      cases h : lookupSeq m u.sourceID with
      | none =>
        simp
      | some v =>
        simp
    · rw [lookupSeq_insSeq_other m u.sourceID u.seqNum a
        (fun hc => hsrc hc.symm)]
      cases h : lookupSeq m a with
      | none =>
        simp only [List.any_cons, List.foldl_cons, if_neg hsrc,
          decide_eq_false hsrc, Bool.false_or]
      | some v =>
        simp only [List.foldl_cons, if_neg hsrc]

theorem buildSeqByAccount_lookup (applied : List Tx) (a : Nat)
    (ha : applied.any (fun u => decide (u.sourceID = a)) = true) :
    lookupSeq (buildSeqByAccount applied) a = some (maxAppliedSeq applied a) := by
  have h := buildSeqAux_lookup applied [] (by simp) a
  rw [show lookupSeq [] a = none from rfl] at h
  rw [show buildSeqByAccount applied =
    applied.foldl (fun m2 tx => insSeq m2 tx.sourceID tx.seqNum) [] from rfl]
  rw [h]
  simp only [ha, if_true]
  rfl

theorem buildSeqByAccount_keys_src (applied : List Tx) :
    ∀ k ∈ (buildSeqByAccount applied).map Prod.fst,
      applied.any (fun u => decide (u.sourceID = k)) = true := by
  have haux : ∀ (L : List Tx) (m : List (Nat × Int)) (k : Nat),
      k ∈ ((L.foldl (fun m2 tx => insSeq m2 tx.sourceID tx.seqNum) m).map
        Prod.fst) →
      k ∈ m.map Prod.fst ∨ L.any (fun u => decide (u.sourceID = k)) = true := by
    intro L
    induction L with
    | nil =>
      intro m k hk
      exact Or.inl hk
    | cons u L2 ih =>
      intro m k hk
      rw [List.foldl_cons] at hk
      rcases ih _ k hk with h | h
      · rcases insSeq_keys_mem m u.sourceID u.seqNum k h with h2 | h2
        · refine Or.inr ?_
          simp [h2.symm]
        · exact Or.inl h2
      · refine Or.inr ?_
        simp only [List.any_cons, h, Bool.or_true]
  intro k hk
  rcases haux applied [] k hk with h | h
  · cases h
  · exact h

theorem maxAppliedSeq_not_src (applied : List Tx) (a : Nat)
    (h : applied.any (fun u => decide (u.sourceID = a)) = false) :
    maxAppliedSeq applied a = 0 := by
  induction applied with
  | nil => rfl
  | cons u L2 ih =>
    rw [List.any_cons] at h
    obtain ⟨ha1, ha2⟩ := Bool.or_eq_false_iff.mp h
    have h1 : u.sourceID ≠ a := decide_eq_false_iff_not.mp ha1
    rw [maxAppliedSeq_cons, if_neg h1]
    exact ih ha2


theorem findAcct_single_inv (k : Nat) (s1 : AccountState) (b : Nat)
    (sb : AccountState) (h : findAcct [(k, s1)] b = some sb) :
    b = k ∧ sb = s1 := by
  have h2 : (if k = b then some s1 else none) = some sb := h
  by_cases hb : k = b
  · rw [if_pos hb] at h2
    exact ⟨hb.symm, (Option.some_inj.mp h2).symm⟩
  · rw [if_neg hb] at h2
    cases h2

/-- Claim C4 (corrected).  `removeApplied(applied)` never touches the ban
ring, and drops from every account exactly the queued transactions with
`seqNum` at most the account's highest applied sequence number
(`seqByAccount`, 0 when the account has no applied transaction), reducing
the global op counter by all dropped ops.  For an account `a` with a
non-empty queue, writing `M` for its highest applied sequence number and
`D` for everything this call drops: when the head's `seqNum` exceeds `M`
the account's transactions, op counter and age are untouched — but,
correcting the claim's "nothing changes for that account", its
`mTotalFees` still falls by the reserve the dropped transactions of other
accounts release into it, `feeToward a D` (a fee-bump's fee source may be
a third account); when the head's `seqNum` is at most `M`, exactly the
prefix with `seqNum ≤ M` is dropped, the age resets to 0, the account's
op counter falls by the dropped ops, its reserve falls by `feeToward a D`,
and the entry is erased iff no transaction and no reserve remains.  The
hypotheses are the documented invariants: unique map keys, contiguous
per-account sequence numbers (spec invariant 4), queue-empty entries keep
a non-zero reserve (spec invariant 1), non-negative fee bids (spec §2),
reserves covering the dropped fees of their fee source (spec invariant
3), and positive sequence numbers on queued transactions (admission
validates every head against `prior_seq ≥ 0`, spec §4). -/
theorem removeApplied_spec (q : TxQueue) (applied : List Tx) (a : Nat)
    (s : AccountState) (t : Tx) (ts : List Tx)
    (hnd : (q.mAccountStates.map Prod.fst).Nodup)
    (hcontig : ∀ b sb, findAcct q.mAccountStates b = some sb →
      ∀ t2 ts2, sb.mTransactions = t2 :: ts2 →
      ∀ j (hj : j < (t2 :: ts2).length),
      ((t2 :: ts2).get ⟨j, hj⟩).seqNum = t2.seqNum + j)
    (hef : ∀ c sc, findAcct q.mAccountStates c = some sc →
      sc.mTransactions = [] → sc.mTotalFees ≠ 0)
    (hnn : ∀ v ∈ removeAppliedDropped q applied, 0 ≤ v.feeBid)
    (hback : ∀ c sc, findAcct q.mAccountStates c = some sc →
      feeToward c (removeAppliedDropped q applied) ≤ sc.mTotalFees)
    (hacct : findAcct q.mAccountStates a = some s)
    (htxs : s.mTransactions = t :: ts)
    (hpos : 0 < t.seqNum) :
    (removeApplied q applied).mBannedTransactions = q.mBannedTransactions
    ∧ (removeApplied q applied).mQueueSizeOps =
        q.mQueueSizeOps - opsSum (removeAppliedDropped q applied)
    ∧ (maxAppliedSeq applied a < t.seqNum →
        findAcct (removeApplied q applied).mAccountStates a =
          some ⟨t :: ts,
            s.mTotalFees - feeToward a (removeAppliedDropped q applied),
            s.mQueueSizeOps, s.mAge⟩)
    ∧ (t.seqNum ≤ maxAppliedSeq applied a →
        findAcct (removeApplied q applied).mAccountStates a =
          (if (t :: ts).filter
              (fun v => decide (maxAppliedSeq applied a < v.seqNum)) = [] ∧
              s.mTotalFees - feeToward a (removeAppliedDropped q applied) = 0
            then none
            else some ⟨(t :: ts).filter
                (fun v => decide (maxAppliedSeq applied a < v.seqNum)),
              s.mTotalFees - feeToward a (removeAppliedDropped q applied),
              s.mQueueSizeOps - opsSum ((t :: ts).filter
                (fun v => decide (v.seqNum ≤ maxAppliedSeq applied a))),
              0⟩)) := by
  have hQ : removeApplied q applied = (buildSeqByAccount applied).foldl
      (fun st kv => removeAppliedOne st kv.1 kv.2) q := rfl
  have hD : removeAppliedDropped q applied =
      removeDroppedOf q (buildSeqByAccount applied) := rfl
  rw [hQ, hD]
  rw [hD] at hnn hback
  obtain ⟨i1, i2, i3, i4⟩ := removeAppliedFoldRun (buildSeqByAccount applied)
    q hnd (buildSeqByAccount_keys_nodup applied)
    (fun b _ sb hsb t2 ts2 htx2 j hj => hcontig b sb hsb t2 ts2 htx2 j hj)
    hef hnn hback
  by_cases hvis : applied.any (fun u => decide (u.sourceID = a)) = true
  · have hlk := buildSeqByAccount_lookup applied a hvis
    have hmem := lookupSeq_mem _ _ _ hlk
    obtain ⟨j1, j2⟩ := i4 a (maxAppliedSeq applied a) hmem s t ts hacct htxs
    exact ⟨i1, i2, j1, j2⟩
  · have hnotk : a ∉ (buildSeqByAccount applied).map Prod.fst := fun hk =>
      hvis (buildSeqByAccount_keys_src applied a hk)
    have hM0 : maxAppliedSeq applied a = 0 :=
      maxAppliedSeq_not_src applied a (by simpa using hvis)
    refine ⟨i1, i2, ?_, ?_⟩
    · intro _
      rw [i3 a hnotk, hacct]
      simp only [afterRel]
      rw [if_neg (fun hc => by
        rw [htxs] at hc
        exact absurd hc.1 (List.cons_ne_nil _ _))]
      rw [← htxs]
    · intro hle
      exfalso
      rw [hM0] at hle
      omega

def ct1 : Tx := ⟨111, 0, EnvType.Plain, 1, 2, 2, 1, 7⟩

def ct2 : Tx := ⟨222, 0, EnvType.Plain, 2, 1, 5, 1, 10⟩

def cq : TxQueue :=
  ⟨[(1, ⟨[ct1], 10, 1, 0⟩), (2, ⟨[ct2], 7, 1, 0⟩)], [[], []], 2, 4, 2,
    [2, 0, 0, 0]⟩

def capplied : List Tx :=
  [⟨911, 0, EnvType.Plain, 1, 1, 1, 1, 0⟩,
   ⟨912, 0, EnvType.Plain, 2, 2, 5, 1, 0⟩]

/-- Claim C4, counterexample to the frozen wording.  In `cq`, account 1's
queued head has sequence number 2, strictly above its highest applied
sequence number 1, so the claim asserts nothing changes for account 1;
but `removeApplied` drops account 2's applied transaction `ct2`, whose
fee source is account 1, and account 1's `mTotalFees` falls from 10
to 0. -/
theorem removeApplied_spec_counterexample :
    maxAppliedSeq capplied 1 < ct1.seqNum
    ∧ findAcct cq.mAccountStates 1 = some ⟨[ct1], 10, 1, 0⟩
    ∧ findAcct (removeApplied cq capplied).mAccountStates 1 =
        some ⟨[ct1], 0, 1, 0⟩ := by decide

theorem removeApplied_spec_witness :
    (removeApplied wq4 [wtB]).mBannedTransactions =
      wq4.mBannedTransactions
    ∧ findAcct (removeApplied wq4 [wtB]).mAccountStates 1 =
        some ⟨[wtC], 10, 1, 0⟩ := by
  obtain ⟨h1, h2, h3, h4⟩ := removeApplied_spec wq4 [wtB] 1
    ⟨[wtA, wtB, wtC], 30, 3, 0⟩ wtA [wtB, wtC]
    (by decide)
    (by
      intro b sb hb t2 ts2 htx2 j hj
      obtain ⟨hb1, hsb1⟩ :=
        findAcct_single_inv 1 ⟨[wtA, wtB, wtC], 30, 3, 0⟩ b sb hb
      rw [hsb1] at htx2
      have hc2 : wtA :: [wtB, wtC] = t2 :: ts2 := htx2
      have he1 : wtA = t2 := by injection hc2
      have he2 : [wtB, wtC] = ts2 := by injection hc2
      subst he1
      subst he2
      have hj3 : j < 3 := by simpa using hj
      interval_cases j <;> norm_num [wtA, wtB, wtC])
    (by
      intro c sc hc hte
      obtain ⟨hc1, hsc1⟩ :=
        findAcct_single_inv 1 ⟨[wtA, wtB, wtC], 30, 3, 0⟩ c sc hc
      rw [hsc1] at hte
      exact absurd hte (by decide))
    (by decide)
    (by
      intro c sc hc
      obtain ⟨hc1, hsc1⟩ :=
        findAcct_single_inv 1 ⟨[wtA, wtB, wtC], 30, 3, 0⟩ c sc hc
      rw [hc1, hsc1]
      decide)
    rfl rfl (by decide)
  refine ⟨h1, ?_⟩
  rw [h4 (by decide)]
  decide

end ThiumCore
